import Mathlib

/-!
Formal model of the sftpsync synchronization engine (sftpsync/__init__.py).

The Python module implements one-way mirroring between a local and a remote
directory tree.  This file gives a shallow embedding of its core:

* path manipulation helpers mirroring the posixpath functions the code uses
  (os.path.join, os.path.basename, os.path.dirname, str.rstrip),
* the change detector SFTP._validate_dst,
* the filter SFTP._validate_src,
* the tree walkers SFTP._walk_remote and SFTP._walk_local over an inductive
  directory-tree type,
* the sync orchestrator SFTP.sync (root resolution, the per-entry loop with
  its manifest, directory creation SFTP._makedirs_dst, copying SFTP._save)
  and the deletion pass SFTP._delete_dst.

Filesystem state is modelled as a flat map from absolute path strings to
entries; a compiled regular expression is modelled as its match predicate;
timestamps and sizes are modelled at integral precision (the code itself
writes timestamps with int(...)).  Fallible dictionary lookups and attribute
accesses are modelled in the Except monad.
-/

/-! ### Path primitives (posixpath semantics, over the character list of a string) -/

/-- Model of str.rstrip applied with the separator, as in src.rstrip in
SFTP.sync: removes every trailing slash. -/
def rstripSlash (s : String) : String :=
  String.mk ((s.data.reverse.dropWhile (fun c => c == '/')).reverse)

/-- Model of str.endswith applied to the separator, as used on line 64 of
SFTP.sync. -/
def endsWithSlash (s : String) : Bool :=
  s.data.getLast? == some '/'

/-- Model of posix os.path.join for two components: if the second component
is absolute it wins; otherwise it is appended, inserting a separator unless
the first component is empty or already ends with one. -/
def pathJoin (a b : String) : String :=
  if b.data.head? = some '/' then b
  else if a.data = [] ∨ a.data.getLast? = some '/' then a ++ b
  else a ++ "/" ++ b

/-- Model of posix os.path.basename: the characters after the last slash. -/
def basename (p : String) : String :=
  String.mk ((p.data.reverse.takeWhile (fun c => c != '/')).reverse)

/-- Model of posix os.path.dirname: everything up to the last slash; the
result keeps its trailing slashes only when it consists of slashes alone. -/
def dirname (p : String) : String :=
  let head := (p.data.reverse.dropWhile (fun c => c != '/')).reverse
  if head.any (fun c => c != '/') then
    String.mk ((head.reverse.dropWhile (fun c => c == '/')).reverse)
  else String.mk head

/-- Boolean list-prefix test, used to model the anchored regular expression
re.compile(r'^<escaped src>/') that SFTP.sync builds on line 67. -/
def isPre : List Char → List Char → Bool
  | [], _ => true
  | _ :: _, [] => false
  | a :: as, b :: bs => a == b && isPre as bs

/-- Model of re_base.sub('', src_file) in SFTP.sync: if src ++ "/" is a
prefix of the path, remove it, otherwise leave the path unchanged.  src is
the already slash-stripped source root. -/
def stripBase (src f : String) : String :=
  if isPre (src.data ++ ['/']) f.data then String.mk (f.data.drop (src.data.length + 1))
  else f

/-! ### Stat values, filesystem entries and the change detector -/

/-- Relevant fields of an os.stat / SFTPAttributes result, at the integral
precision the engine reads and writes. -/
structure PStat where
  st_size : Int
  st_mtime : Int
  st_atime : Int
deriving DecidableEq, Repr

/-- One destination filesystem node: the change detector and the deletion
pass only ever look at an entry through its stat and its kind. -/
inductive Entry where
  | dir (st : PStat)
  | file (st : PStat)
deriving DecidableEq, Repr

/-- Stat of an entry, as returned by lstat on either kind of node. -/
def Entry.stat : Entry → PStat
  | .dir s => s
  | .file s => s

/-- Kind string of an entry, matching the kind strings the walkers yield. -/
def Entry.kindStr : Entry → String
  | .dir _ => "dir"
  | .file _ => "file"

/-- Destination filesystem state: a flat map from absolute paths to entries;
none models a path on which lstat / os.path.exists fails. -/
def FS : Type := String → Option Entry

/-- MTIME_TOLERANCE constant from line 9 of the module. -/
def MTIME_TOLERANCE : Int := 3

/-- Model of SFTP._validate_dst (lines 150-166): dst_stat? is the result of
the destination stat (none when lstat raised / os.path.exists was false).
The code first compares modification times with the tolerance, then sizes,
and returns False on any stat failure. -/
def validate_dst (dst_stat? : Option PStat) (src_stat : PStat) : Bool :=
  match dst_stat? with
  | none => false
  | some dst_stat =>
    if |dst_stat.st_mtime - src_stat.st_mtime| > MTIME_TOLERANCE then false
    else if dst_stat.st_size ≠ src_stat.st_size then false
    else true

/-! ### The filter engine -/

/-- Model of SFTP._validate_src (lines 168-169).  A compiled pattern is
modelled by its search predicate (re.Pattern.search tests for a match
anywhere in the string). -/
def validate_src (file : String) (includes excludes : List (String → Bool)) : Bool :=
  !(excludes.any fun e => e file) && (includes.isEmpty || includes.any fun i => i file)

/-- Model of the search predicate of the compiled pattern re.compile(".*"):
it matches every string. -/
def matchAnything : String → Bool := fun _ => true

/-- Model of the search predicate of the compiled pattern ending-anchored on
".tmp" (the spec example exclude pattern): it matches exactly the strings
ending with ".tmp". -/
def matchDotTmpAtEnd : String → Bool := fun s => isPre (".tmp".data.reverse) s.data.reverse

/-! ### Root resolution of SFTP.sync (lines 64-69) -/

/-- Effective destination root: when exactly one of src / dst ends with a
separator, the basename of the slash-stripped source is appended to the
destination, otherwise the destination is used as given. -/
def effective_dst (src dst : String) : String :=
  if (endsWithSlash src != endsWithSlash dst) = true then
    pathJoin dst (basename (rstripSlash src))
  else dst

/-- Destination path of one walked source entry: the effective destination
root joined with the source path relative to the slash-stripped source
root.  This composes lines 64-69 with line 78 and line 83 of SFTP.sync. -/
def dst_file_for (src dst srcFile : String) : String :=
  pathJoin (effective_dst src dst) (stripBase (rstripSlash src) srcFile)

/-! ### Directory trees and the walkers -/

/-- A source or destination directory tree node, carrying the stat the
filesystem reports for it. -/
inductive FNode where
  | file (name : String) (st : PStat)
  | dir (name : String) (st : PStat) (children : List FNode)
deriving Repr

/-- Name of a node. -/
def FNode.name : FNode → String
  | .file n _ => n
  | .dir n _ _ => n

/-- One walker output: kind string, absolute path, optional metadata,
matching the (src_type, src_file, src_stat) tuples of SFTP._walk. -/
abbrev WalkEntry := String × String × Option PStat

/-- Model of SFTP._walk_remote (lines 184-199) on the children list of the
directory at path p: files are yielded immediately; a subdirectory is
yielded before its subtree in top-down mode and after it, with no metadata,
in bottom-up mode. -/
def walk_remote (td : Bool) : List FNode → String → List WalkEntry
  | [], _ => []
  | .file n st :: rest, p => ("file", pathJoin p n, some st) :: walk_remote td rest p
  | .dir n st ch :: rest, p =>
      (if td then ("dir", pathJoin p n, some st) :: walk_remote td ch (pathJoin p n)
       else walk_remote td ch (pathJoin p n) ++ [("dir", pathJoin p n, none)]) ++
      walk_remote td rest p

/-- File entries of one directory level, as SFTP._walk_local yields them
from one os.walk triple (each with its stat). -/
def levelFiles : List FNode → String → List WalkEntry
  | [], _ => []
  | .file n st :: rest, p => ("file", pathJoin p n, some st) :: levelFiles rest p
  | .dir _ _ _ :: rest, p => levelFiles rest p

/-- Directory entries of one directory level, as SFTP._walk_local yields
them after the files of the same os.walk triple. -/
def levelDirs : List FNode → String → List WalkEntry
  | [], _ => []
  | .file _ _ :: rest, p => levelDirs rest p
  | .dir n st _ :: rest, p => ("dir", pathJoin p n, some st) :: levelDirs rest p

/-- Entries contributed by the subdirectories of a level: os.walk recurses
into each subdirectory in listing order, emitting that subtree before (in
bottom-up mode after is handled by the caller ordering) the next sibling. -/
def walk_local_subs (td : Bool) : List FNode → String → List WalkEntry
  | [], _ => []
  | .file _ _ :: rest, p => walk_local_subs td rest p
  | .dir n _ ch :: rest, p =>
      (if td then (levelFiles ch (pathJoin p n) ++ levelDirs ch (pathJoin p n)) ++
                  walk_local_subs td ch (pathJoin p n)
       else walk_local_subs td ch (pathJoin p n) ++
            (levelFiles ch (pathJoin p n) ++ levelDirs ch (pathJoin p n))) ++
      walk_local_subs td rest p

/-- Model of SFTP._walk_local (lines 175-182) on the children of the root:
for each directory in os.walk order, every file of that directory then
every subdirectory, with the requested top-down or bottom-up recursion. -/
def walk_local (td : Bool) (cs : List FNode) (p : String) : List WalkEntry :=
  if td then (levelFiles cs p ++ levelDirs cs p) ++ walk_local_subs td cs p
  else walk_local_subs td cs p ++ (levelFiles cs p ++ levelDirs cs p)

/-- Well-formed filesystem name: nonempty and without a separator, as every
name produced by a real directory listing is. -/
def wfName (n : String) : Bool :=
  !n.data.isEmpty && n.data.all (fun c => c != '/')

/-- Well-formed tree level: every name is well formed, sibling names are
distinct, and all subtrees are well formed. -/
def wfList : List FNode → Bool
  | [] => true
  | .file n _ :: rest => wfName n && !((rest.map FNode.name).contains n) && wfList rest
  | .dir n _ ch :: rest =>
      wfName n && !((rest.map FNode.name).contains n) && wfList ch && wfList rest

/-! ### The sync orchestrator -/

/-- Errors with which the modelled Python code can abort: a missing
dictionary key, the explicit ValueError branch of SFTP.sync, and an
attribute access on None. -/
inductive PyErr where
  | keyError
  | valueError
  | attrError
deriving DecidableEq, Repr

/-- The DestinationManifest: the dst_list dictionary of SFTP.sync with its
two keys, file and dir. -/
structure DstList where
  file : List String
  dir : List String
deriving DecidableEq, Repr

/-- Dictionary lookup on dst_list: any key other than file and dir is
missing. -/
def DstList.get? (d : DstList) (k : String) : Option (List String) :=
  if k = "file" then some d.file else if k = "dir" then some d.dir else none

/-- Total variant of the dst_list lookup, for stating results. -/
def DstList.getL (d : DstList) (k : String) : List String :=
  if k = "file" then d.file else if k = "dir" then d.dir else []

/-- Appending a destination path to the list held under a key. -/
def DstList.push (d : DstList) (k v : String) : DstList :=
  if k = "file" then { d with file := d.file ++ [v] }
  else if k = "dir" then { d with dir := d.dir ++ [v] }
  else d

/-- Configuration of one sync pass after root resolution: the compiled
filter predicates, the slash-stripped source root, the effective
destination root, which side the destination is on, the dry flag, and the
stat the environment assigns to a directory the pass creates. -/
structure Cfg where
  includes : List (String → Bool)
  excludes : List (String → Bool)
  srcRoot : String
  dstRoot : String
  remote : Bool
  dry : Bool
  mkStat : String → PStat

/-- Mutable state of the walking phase: destination filesystem, accumulated
total_size, number of performed copies, and the manifest. -/
structure SyncState where
  fs : FS
  total : Int
  copies : Nat
  dst_list : DstList

/-- Pointwise insertion into the flat filesystem map. -/
def fsInsert (fs : FS) (p : String) (e : Entry) : FS :=
  fun q => if q = p then some e else fs q

/-- Pointwise removal from the flat filesystem map. -/
def fsRemove (fs : FS) (p : String) : FS :=
  fun q => if q = p then none else fs q

/-- The ancestor chain built by the while loop of SFTP._makedirs_dst
(lines 123-126): the path and its ancestors, outermost first, stopping at
the filesystem root or the empty string.  The fuel argument bounds the
loop; with fuel path.length + 1 it models every terminating run. -/
def ancestors : Nat → String → List String
  | 0, _ => []
  | fuel + 1, p => if p = "/" ∨ p = "" then [] else ancestors fuel (dirname p) ++ [p]

/-- One mkdir attempt of SFTP._makedirs_dst: a path whose lstat succeeds is
left alone; a missing one is created (as a directory with the stat the
environment gives it) unless the pass is dry. -/
def mkdirStep (dry : Bool) (mkStat : String → PStat) (f : FS) (q : String) : FS :=
  if (f q).isSome then f
  else if dry then f
  else fsInsert f q (.dir (mkStat q))

/-- Model of SFTP._makedirs_dst (lines 121-138).  Remote side: walk the
ancestor chain and create every missing directory.  Local side: when the
path does not exist, os.makedirs creates it together with its missing
ancestors (modelled by the same chain). -/
def makedirs_dst (remote dry : Bool) (mkStat : String → PStat) (fs : FS) (path : String) : FS :=
  if remote then (ancestors (path.length + 1) path).foldl (mkdirStep dry mkStat) fs
  else if (fs path).isSome then fs
  else (ancestors (path.length + 1) path).foldl (mkdirStep dry mkStat) fs

/-- Model of SFTP._save (lines 140-148): the copy writes the source content
(so the destination size becomes the source size) and utime then sets the
destination access and modification times to the integral source times. -/
def save (fs : FS) (dst : String) (src_stat : PStat) : FS :=
  fsInsert fs dst (.file
    { st_size := src_stat.st_size, st_mtime := src_stat.st_mtime, st_atime := src_stat.st_atime })

/-- Filter decision for one walked source path (line 79 of SFTP.sync):
validate_src applied to the path relative to the source root. -/
def passes (cfg : Cfg) (srcFile : String) : Bool :=
  validate_src (stripBase cfg.srcRoot srcFile) cfg.includes cfg.excludes

/-- Destination path of one walked source path (line 83 of SFTP.sync). -/
def dstOf (cfg : Cfg) (srcFile : String) : String :=
  pathJoin cfg.dstRoot (stripBase cfg.srcRoot srcFile)

/-- Model of the body of the walking loop of SFTP.sync (lines 77-95) for a
single entry.  A filtered-out entry is skipped; otherwise the destination
path is recorded in the manifest (the dictionary lookup raising KeyError on
an unknown kind), then a directory is created, or a file is copied when the
change detector reports it out of date; the trailing else raises
ValueError. -/
def processEntry (cfg : Cfg) (st : SyncState) (e : WalkEntry) : Except PyErr SyncState :=
  if passes cfg e.2.1 = false then .ok st
  else
    match st.dst_list.get? e.1 with
    | none => .error .keyError
    | some _ =>
      let st1 : SyncState := { st with dst_list := st.dst_list.push e.1 (dstOf cfg e.2.1) }
      if e.1 = "dir" then
        .ok { st1 with fs := makedirs_dst cfg.remote cfg.dry cfg.mkStat st1.fs (dstOf cfg e.2.1) }
      else if e.1 = "file" then
        match e.2.2 with
        | none => .error .attrError
        | some src_stat =>
          if validate_dst (Option.map Entry.stat (st1.fs (dstOf cfg e.2.1))) src_stat then .ok st1
          else .ok { st1 with
                     fs := if cfg.dry then st1.fs else save st1.fs (dstOf cfg e.2.1) src_stat,
                     total := st1.total + src_stat.st_size,
                     copies := st1.copies + (if cfg.dry then 0 else 1) }
      else .error .valueError

/-- The walking loop of SFTP.sync over a list of walked entries. -/
def sync_entries (cfg : Cfg) (entries : List WalkEntry) (st : SyncState) :
    Except PyErr SyncState :=
  entries.foldlM (processEntry cfg) st

/-- Total refinement of processEntry on walker-produced entries (kind file
with metadata, or kind dir); on other entries it returns junk and is never
related to processEntry. -/
def stepOk (cfg : Cfg) (st : SyncState) (e : WalkEntry) : SyncState :=
  if passes cfg e.2.1 = false then st
  else
    let st1 : SyncState := { st with dst_list := st.dst_list.push e.1 (dstOf cfg e.2.1) }
    if e.1 = "dir" then
      { st1 with fs := makedirs_dst cfg.remote cfg.dry cfg.mkStat st1.fs (dstOf cfg e.2.1) }
    else
      match e.2.2 with
      | none => st1
      | some src_stat =>
        if validate_dst (Option.map Entry.stat (st1.fs (dstOf cfg e.2.1))) src_stat then st1
        else { st1 with
               fs := if cfg.dry then st1.fs else save st1.fs (dstOf cfg e.2.1) src_stat,
               total := st1.total + src_stat.st_size,
               copies := st1.copies + (if cfg.dry then 0 else 1) }

/-- State of the deletion pass: the destination filesystem, the entries for
which removal was attempted (logged), and the entries actually removed. -/
structure DelState where
  fs : FS
  attempted : List (String × String)
  removed : List (String × String)

/-- Model of the body of the deletion loop of SFTP._delete_dst
(lines 108-116) for one walked destination entry: the manifest list for the
entry kind is looked up (KeyError on an unknown kind, outside any try);
members of the manifest are preserved; otherwise removal is attempted
unless the run is dry, and a failing removal (okRemove false) is logged and
skipped. -/
def deleteStep (okRemove : String → String → Bool) (dry : Bool) (files : DstList)
    (st : DelState) (e : WalkEntry) : Except PyErr DelState :=
  match files.get? e.1 with
  | none => .error .keyError
  | some l =>
    if l.contains e.2.1 then .ok st
    else
      let st1 : DelState := { st with attempted := st.attempted ++ [(e.1, e.2.1)] }
      if dry then .ok st1
      else if okRemove e.1 e.2.1 then
        .ok { st1 with fs := fsRemove st1.fs e.2.1, removed := st1.removed ++ [(e.1, e.2.1)] }
      else .ok st1

/-- Model of SFTP._delete_dst (lines 102-116) over the bottom-up walk of
the destination root. -/
def delete_dst (walk : List WalkEntry) (files : DstList) (dry : Bool)
    (okRemove : String → String → Bool) (fs : FS) : Except PyErr DelState :=
  walk.foldlM (deleteStep okRemove dry files) { fs := fs, attempted := [], removed := [] }

/-- Model of SFTP.sync after root resolution (lines 71-98): create the
destination root, run the walking loop over the walked source entries, and
when delete is set run the deletion pass over the bottom-up walk of the
destination (dstWalk produces that walk from the destination state;
okRemove tells which individual removals succeed).  Returns the final state
and the list of removed destination entries. -/
def sync_once (cfg : Cfg) (entries : List WalkEntry) (fs0 : FS) (del : Bool)
    (dstWalk : FS → List WalkEntry) (okRemove : String → String → Bool) :
    Except PyErr (SyncState × List (String × String)) :=
  let fs1 := makedirs_dst cfg.remote cfg.dry cfg.mkStat fs0 cfg.dstRoot
  (sync_entries cfg entries { fs := fs1, total := 0, copies := 0, dst_list := ⟨[], []⟩ }).bind
    fun st =>
      if del then
        (delete_dst (dstWalk st.fs) st.dst_list cfg.dry okRemove st.fs).map
          fun d => ({ st with fs := d.fs }, d.removed)
      else .ok (st, [])

/-- Entries a walker can produce: kind dir, or kind file with metadata. -/
def GoodEntry (e : WalkEntry) : Prop :=
  e.1 = "dir" ∨ (e.1 = "file" ∧ e.2.2 ≠ none)

/-- Destination paths of the filter-passing file entries of a walk, in
order. -/
def fileDsts (cfg : Cfg) (entries : List WalkEntry) : List String :=
  (entries.filter fun e => passes cfg e.2.1 && (e.1 == "file")).map fun e => dstOf cfg e.2.1

/-- Destination paths of the filter-passing directory entries of a walk, in
order. -/
def dirDsts (cfg : Cfg) (entries : List WalkEntry) : List String :=
  (entries.filter fun e => passes cfg e.2.1 && (e.1 == "dir")).map fun e => dstOf cfg e.2.1

/-- A path strictly below the root: the slash-stripped root, a separator,
then a remainder ending with a non-separator character. -/
def underRoot (root q : String) : Prop :=
  ∃ t c, q.data = (rstripSlash root).data ++ '/' :: (t ++ [c]) ∧ c ≠ '/'

/-- One string path lies strictly below another: separated by a slash. -/
def descOf (a b : String) : Prop :=
  ∃ t, b.data = a.data ++ '/' :: t

/-! ### Claims C1, C2, C3 -/

/-- C1: the change detector reports up to date exactly when the destination
stat succeeds, the sizes are equal and the absolute modification-time
difference is at most 3; a difference of exactly 3 counts as up to date,
any larger difference does not, and a stat failure yields not up to date. -/
theorem claim_C1 (dst_stat? : Option PStat) (src_stat : PStat) :
    (validate_dst dst_stat? src_stat = true ↔
      ∃ d, dst_stat? = some d ∧ d.st_size = src_stat.st_size ∧
        |d.st_mtime - src_stat.st_mtime| ≤ 3)
    ∧ validate_dst none src_stat = false
    ∧ (∀ d : PStat, d.st_size = src_stat.st_size →
        |d.st_mtime - src_stat.st_mtime| = 3 → validate_dst (some d) src_stat = true)
    ∧ (∀ d : PStat, |d.st_mtime - src_stat.st_mtime| > 3 →
        validate_dst (some d) src_stat = false) := by
  refine ⟨?_, rfl, ?_, ?_⟩
  · constructor
    · intro h
      match hd : dst_stat? with
      | none => simp [validate_dst] at h
      | some d =>
        simp only [validate_dst, MTIME_TOLERANCE] at h
        split at h
        · exact absurd h (by simp)
        · split at h
          · exact absurd h (by simp)
          · next h1 h2 => exact ⟨d, rfl, by omega, by omega⟩
    · rintro ⟨d, rfl, hsize, hm⟩
      simp only [validate_dst, MTIME_TOLERANCE]
      rw [if_neg (by omega), if_neg (by omega)]
  · intro d hsize hm
    simp only [validate_dst, MTIME_TOLERANCE]
    rw [if_neg (by omega), if_neg (by omega)]
  · intro d hm
    simp only [validate_dst, MTIME_TOLERANCE]
    rw [if_pos (by omega)]

/-- Witness for C1 at concrete inputs: a destination stat differing in
mtime by exactly 3 with equal size is up to date, by 4 it is not. -/
theorem claim_C1_wit :
    validate_dst (some ⟨10, 3, 0⟩) ⟨10, 0, 0⟩ = true ∧
    validate_dst (some ⟨10, 4, 0⟩) ⟨10, 0, 0⟩ = false :=
  ⟨(claim_C1 (some ⟨10, 3, 0⟩) ⟨10, 0, 0⟩).2.2.1 ⟨10, 3, 0⟩ (by decide) (by decide),
   (claim_C1 (some ⟨10, 4, 0⟩) ⟨10, 0, 0⟩).2.2.2 ⟨10, 4, 0⟩ (by decide)⟩

/-- C2: the filter accepts a relative path iff no exclude pattern matches
and either the include list is empty or some include pattern matches; with
include patterns matching anything and an exclude pattern matching paths
that end in ".tmp", the path a.tmp is rejected. -/
theorem claim_C2 :
    (∀ (file : String) (includes excludes : List (String → Bool)),
      validate_src file includes excludes = true ↔
        ((∀ e ∈ excludes, e file = false) ∧
          (includes = [] ∨ ∃ i ∈ includes, i file = true)))
    ∧ validate_src "a.tmp" [matchAnything] [matchDotTmpAtEnd] = false := by
  constructor
  · intro file includes excludes
    simp only [validate_src, Bool.and_eq_true, Bool.not_eq_true', List.any_eq_false,
      Bool.or_eq_true, List.isEmpty_iff, List.any_eq_true]
    constructor
    · rintro ⟨h1, h2⟩
      exact ⟨fun e he => by simpa using h1 e he, h2⟩
    · rintro ⟨h1, h2⟩
      exact ⟨fun e he => by simpa using h1 e he, h2⟩
  · decide

/-- C3: for the root pair, if exactly one of source / destination ends with
a separator the effective destination is the destination joined with the
basename of the slash-stripped source, otherwise the destination is used as
given; consequently syncing /a/b to /c/d maps the entry /a/b/x to /c/d/x,
while syncing /a/b/ to /c/d maps it to /c/d/b/x. -/
theorem claim_C3 :
    (∀ src dst : String,
      (endsWithSlash src ≠ endsWithSlash dst →
        effective_dst src dst = pathJoin dst (basename (rstripSlash src)))
      ∧ (endsWithSlash src = endsWithSlash dst → effective_dst src dst = dst))
    ∧ dst_file_for "/a/b" "/c/d" "/a/b/x" = "/c/d/x"
    ∧ dst_file_for "/a/b/" "/c/d" "/a/b/x" = "/c/d/b/x" := by
  refine ⟨fun src dst => ⟨fun h => ?_, fun h => ?_⟩, by decide, by decide⟩
  · unfold effective_dst
    rw [if_pos]
    simp only [bne_iff_ne, ne_eq]
    exact h
  · unfold effective_dst
    rw [if_neg]
    simp only [bne_iff_ne, ne_eq, not_not]
    exact h

/-- Witness for C3: instantiates the general root-resolution clauses on the
two concrete root pairs of the trailing-slash example. -/
theorem claim_C3_wit :
    effective_dst "/a/b/" "/c/d" = pathJoin "/c/d" (basename (rstripSlash "/a/b/")) ∧
    effective_dst "/a/b" "/c/d" = "/c/d" :=
  ⟨(claim_C3.1 "/a/b/" "/c/d").1 (by decide), (claim_C3.1 "/a/b" "/c/d").2 (by decide)⟩

/-! ### Helper lemmas about the path primitives -/

theorem isPre_iff (l₁ l₂ : List Char) : isPre l₁ l₂ = true ↔ ∃ t, l₂ = l₁ ++ t := by
  induction l₁ generalizing l₂ with
  | nil => simp [isPre]
  | cons a as ih =>
    cases l₂ with
    | nil => simp [isPre]
    | cons b bs =>
      simp only [isPre, Bool.and_eq_true, beq_iff_eq, ih]
      constructor
      · rintro ⟨rfl, t, rfl⟩
        exact ⟨t, rfl⟩
      · rintro ⟨t, ht⟩
        injection ht with h1 h2
        exact ⟨h1.symm, t, h2⟩

theorem head?_dropWhile {p : Char → Bool} {l : List Char} {c : Char}
    (h : (l.dropWhile p).head? = some c) : p c = false := by
  induction l with
  | nil => simp [List.dropWhile] at h
  | cons a as ih =>
    by_cases hp : p a
    · rw [List.dropWhile_cons_of_pos hp] at h
      exact ih h
    · rw [List.dropWhile_cons_of_neg hp] at h
      simp at h
      rw [← h]
      exact Bool.of_not_eq_true hp

theorem mem_takeWhile {p : Char → Bool} {l : List Char} {c : Char}
    (h : c ∈ l.takeWhile p) : p c = true := by
  induction l with
  | nil => simp [List.takeWhile] at h
  | cons a as ih =>
    by_cases hp : p a
    · rw [List.takeWhile_cons_of_pos hp] at h
      rcases List.mem_cons.mp h with rfl | h2
      · exact hp
      · exact ih h2
    · rw [List.takeWhile_cons_of_neg hp] at h
      simp at h
theorem rstrip_decomp (s : String) :
    ∃ sl, s.data = (rstripSlash s).data ++ sl ∧ ∀ c ∈ sl, c = '/' := by
  refine ⟨(s.data.reverse.takeWhile (fun c => c == '/')).reverse, ?_, ?_⟩
  · have h1 : (rstripSlash s).data = (s.data.reverse.dropWhile (fun c => c == '/')).reverse := rfl
    rw [h1, ← List.reverse_append, List.takeWhile_append_dropWhile, List.reverse_reverse]
  · intro c hc
    rw [List.mem_reverse] at hc
    simpa using mem_takeWhile hc

theorem rstrip_last (s : String) {c : Char}
    (h : (rstripSlash s).data.getLast? = some c) : c ≠ '/' := by
  have h1 : (rstripSlash s).data = (s.data.reverse.dropWhile (fun c => c == '/')).reverse := rfl
  rw [h1, List.getLast?_reverse] at h
  intro hc
  have := head?_dropWhile h
  rw [hc] at this
  simp at this

theorem data_ne_nil {s : String} (h : s ≠ "") : s.data ≠ [] := by
  intro hd
  apply h
  cases s
  simp at hd
  rw [hd]

theorem wfName_props {n : String} (h : wfName n = true) :
    n.data ≠ [] ∧ ∀ c ∈ n.data, c ≠ '/' := by
  unfold wfName at h
  rw [Bool.and_eq_true] at h
  constructor
  · intro hnil
    rw [hnil] at h
    simp at h
  · intro c hc
    have := (List.all_eq_true.mp h.2) c hc
    simpa using this

theorem pathJoin_data {p n : String} (h : ¬ n.data.head? = some '/') :
    (pathJoin p n).data =
      p.data ++ (if p.data = [] ∨ p.data.getLast? = some '/' then [] else ['/']) ++ n.data := by
  unfold pathJoin
  rw [if_neg h]
  by_cases hc : p.data = [] ∨ p.data.getLast? = some '/'
  · rw [if_pos hc, if_pos hc, String.data_append, List.append_nil]
  · rw [if_neg hc, if_neg hc, String.data_append, String.data_append]

theorem underRoot_getLast {root q : String} (h : underRoot root q) :
    ∃ c, q.data.getLast? = some c ∧ c ≠ '/' := by
  rcases h with ⟨t, c, hq, hc⟩
  refine ⟨c, ?_, hc⟩
  rw [hq]
  rw [show (rstripSlash root).data ++ '/' :: (t ++ [c]) =
      ((rstripSlash root).data ++ '/' :: t) ++ [c] by simp]
  exact List.getLast?_concat _

theorem underRoot_ne_root {root q : String} (h : underRoot root q) : q ≠ root := by
  rcases underRoot_getLast h with ⟨c, hql, hc⟩
  rcases h with ⟨t, c2, hq, hc2⟩
  rcases rstrip_decomp root with ⟨sl, hroot, hslash⟩
  intro heq
  rw [heq] at hq hql
  rcases List.eq_nil_or_concat sl with hsl | ⟨sl2, cl, hsl⟩
  · rw [hsl, List.append_nil] at hroot
    have h4 : (rstripSlash root).data ++ '/' :: (t ++ [c2]) = (rstripSlash root).data := by
      rw [← hq, hroot]
    have h5 := congrArg List.length h4
    simp at h5
  · have hcl : cl = '/' := hslash cl (by rw [hsl]; simp)
    rw [hsl, List.concat_eq_append] at hroot
    rw [hroot, ← List.append_assoc, List.getLast?_concat] at hql
    injection hql with h3
    exact hc (h3.symm.trans hcl)

theorem underRoot_join {root p n : String} (hr : root ≠ "")
    (hp : underRoot root p ∨ p = root) (hn : wfName n = true) :
    underRoot root (pathJoin p n) := by
  rcases wfName_props hn with ⟨hn1, hn2⟩
  rcases List.eq_nil_or_concat n.data with hcontra | ⟨n2, d, hnd⟩
  · exact absurd hcontra hn1
  have hd : d ≠ '/' := hn2 d (by rw [hnd]; simp)
  have hhead : ¬ n.data.head? = some '/' := by
    intro hcontra
    cases hn3 : n.data with
    | nil => rw [hn3] at hcontra; simp at hcontra
    | cons a as =>
      rw [hn3] at hcontra
      simp at hcontra
      exact hn2 a (by rw [hn3]; exact List.mem_cons_self a as) hcontra
  rcases hp with hp | rfl
  · rcases underRoot_getLast hp with ⟨c, hpl, hcn⟩
    rcases hp with ⟨t, c2, hpd, hc2⟩
    have hcond : ¬ (p.data = [] ∨ p.data.getLast? = some '/') := by
      rintro (h1 | h1)
      · rw [h1] at hpl; simp at hpl
      · rw [h1] at hpl; injection hpl with h2; exact hcn h2.symm
    refine ⟨t ++ [c2] ++ '/' :: n2, d, ?_, hd⟩
    rw [pathJoin_data hhead, if_neg hcond, hpd, hnd]
    simp
  · rcases rstrip_decomp p with ⟨sl, hroot, hslash⟩
    rcases List.eq_nil_or_concat sl with rfl | ⟨sl2, cl, rfl⟩
    · rw [List.append_nil] at hroot
      have hcond : ¬ (p.data = [] ∨ p.data.getLast? = some '/') := by
        rintro (h1 | h1)
        · exact data_ne_nil hr h1
        · rw [hroot] at h1
          exact rstrip_last p h1 rfl
      refine ⟨n2, d, ?_, hd⟩
      rw [pathJoin_data hhead, if_neg hcond, hroot, hnd]
      simp
    · rw [List.concat_eq_append] at hroot
      have hcl : cl = '/' := hslash cl (by simp [List.concat_eq_append])
      have hcond : p.data = [] ∨ p.data.getLast? = some '/' := by
        right
        rw [hroot, ← List.append_assoc, List.getLast?_concat, hcl]
      cases hsl2 : sl2 with
      | nil =>
        rw [hsl2, List.nil_append] at hroot
        refine ⟨n2, d, ?_, hd⟩
        rw [pathJoin_data hhead, if_pos hcond, List.append_nil, hroot, hnd, hcl]
        simp
      | cons c0 sl3 =>
        have hc0 : c0 = '/' := hslash c0 (by rw [hsl2]; simp [List.concat_eq_append])
        rw [hsl2] at hroot
        refine ⟨(sl3 ++ [cl]) ++ n2, d, ?_, hd⟩
        rw [pathJoin_data hhead, if_pos hcond, List.append_nil, hroot, hnd, hcl, hc0]
        simp

theorem wfList_file {n : String} {st : PStat} {rest : List FNode}
    (h : wfList (.file n st :: rest) = true) :
    wfName n = true ∧ ((rest.map FNode.name).contains n) = false ∧ wfList rest = true := by
  unfold wfList at h
  rw [Bool.and_eq_true, Bool.and_eq_true] at h
  exact ⟨h.1.1, by simpa using h.1.2, h.2⟩

theorem wfList_dir {n : String} {st : PStat} {ch rest : List FNode}
    (h : wfList (.dir n st ch :: rest) = true) :
    wfName n = true ∧ ((rest.map FNode.name).contains n) = false ∧
      wfList ch = true ∧ wfList rest = true := by
  unfold wfList at h
  rw [Bool.and_eq_true, Bool.and_eq_true, Bool.and_eq_true] at h
  exact ⟨h.1.1.1, by simpa using h.1.1.2, h.1.2, h.2⟩

theorem walk_remote_under (td : Bool) (root : String) (hr : root ≠ "") :
    ∀ (cs : List FNode) (p : String), wfList cs = true → (underRoot root p ∨ p = root) →
    ∀ e ∈ walk_remote td cs p, underRoot root e.2.1 := by
  intro cs p
  induction cs, p using walk_remote.induct td with
  | case1 p =>
    intro _ _ e he
    simp [walk_remote] at he
  | case2 n st rest p ih =>
    intro hwf hp e he
    rcases wfList_file hwf with ⟨hn, _, hrest⟩
    rw [walk_remote] at he
    rcases List.mem_cons.mp he with rfl | he2
    · exact underRoot_join hr hp hn
    · exact ih hrest hp e he2
  | case3 n st ch rest p ih1 ih2 =>
    intro hwf hp e he
    rcases wfList_dir hwf with ⟨hn, _, hch, hrest⟩
    have hj : underRoot root (pathJoin p n) := underRoot_join hr hp hn
    rw [walk_remote] at he
    rcases List.mem_append.mp he with he1 | he2
    · cases td with
      | true =>
        rw [if_pos rfl] at he1
        rcases List.mem_cons.mp he1 with rfl | he3
        · exact hj
        · exact ih1 hch (Or.inl hj) e he3
      | false =>
        rw [if_neg (by simp)] at he1
        rcases List.mem_append.mp he1 with he3 | he3
        · exact ih1 hch (Or.inl hj) e he3
        · rcases List.mem_singleton.mp he3 with rfl
          exact hj
    · exact ih2 hrest hp e he2

theorem levelFiles_under {root : String} (hr : root ≠ "") :
    ∀ (cs : List FNode) (p : String), wfList cs = true → (underRoot root p ∨ p = root) →
    ∀ e ∈ levelFiles cs p, underRoot root e.2.1 := by
  intro cs
  induction cs with
  | nil =>
    intro p _ _ e he
    simp [levelFiles] at he
  | cons c rest ih =>
    intro p hwf hp e he
    cases c with
    | file n st =>
      rcases wfList_file hwf with ⟨hn, _, hrest⟩
      rw [levelFiles] at he
      rcases List.mem_cons.mp he with rfl | he2
      · exact underRoot_join hr hp hn
      · exact ih p hrest hp e he2
    | dir n st ch =>
      rcases wfList_dir hwf with ⟨_, _, _, hrest⟩
      rw [levelFiles] at he
      exact ih p hrest hp e he

theorem levelDirs_under {root : String} (hr : root ≠ "") :
    ∀ (cs : List FNode) (p : String), wfList cs = true → (underRoot root p ∨ p = root) →
    ∀ e ∈ levelDirs cs p, underRoot root e.2.1 := by
  intro cs
  induction cs with
  | nil =>
    intro p _ _ e he
    simp [levelDirs] at he
  | cons c rest ih =>
    intro p hwf hp e he
    cases c with
    | file n st =>
      rcases wfList_file hwf with ⟨_, _, hrest⟩
      rw [levelDirs] at he
      exact ih p hrest hp e he
    | dir n st ch =>
      rcases wfList_dir hwf with ⟨hn, _, _, hrest⟩
      rw [levelDirs] at he
      rcases List.mem_cons.mp he with rfl | he2
      · exact underRoot_join hr hp hn
      · exact ih p hrest hp e he2

theorem walk_local_subs_under (td : Bool) {root : String} (hr : root ≠ "") :
    ∀ (cs : List FNode) (p : String), wfList cs = true → (underRoot root p ∨ p = root) →
    ∀ e ∈ walk_local_subs td cs p, underRoot root e.2.1 := by
  intro cs p
  induction cs, p using walk_local_subs.induct td with
  | case1 p =>
    intro _ _ e he
    simp [walk_local_subs] at he
  | case2 n st rest p ih =>
    intro hwf hp e he
    rcases wfList_file hwf with ⟨_, _, hrest⟩
    rw [walk_local_subs] at he
    exact ih hrest hp e he
  | case3 n st ch rest p ih1 ih2 =>
    intro hwf hp e he
    rcases wfList_dir hwf with ⟨hn, _, hch, hrest⟩
    have hj : underRoot root (pathJoin p n) := underRoot_join hr hp hn
    rw [walk_local_subs] at he
    rcases List.mem_append.mp he with he1 | he2
    · have hmem : e ∈ levelFiles ch (pathJoin p n) ∨ e ∈ levelDirs ch (pathJoin p n) ∨
          e ∈ walk_local_subs td ch (pathJoin p n) := by
        cases td with
        | true =>
          rw [if_pos rfl] at he1
          rcases List.mem_append.mp he1 with h2 | h2
          · rcases List.mem_append.mp h2 with h3 | h3
            · exact Or.inl h3
            · exact Or.inr (Or.inl h3)
          · exact Or.inr (Or.inr h2)
        | false =>
          rw [if_neg (by simp)] at he1
          rcases List.mem_append.mp he1 with h2 | h2
          · exact Or.inr (Or.inr h2)
          · rcases List.mem_append.mp h2 with h3 | h3
            · exact Or.inl h3
            · exact Or.inr (Or.inl h3)
      rcases hmem with h3 | h3 | h3
      · exact levelFiles_under hr ch (pathJoin p n) hch (Or.inl hj) e h3
      · exact levelDirs_under hr ch (pathJoin p n) hch (Or.inl hj) e h3
      · exact ih1 hch (Or.inl hj) e h3
    · exact ih2 hrest hp e he2

theorem walk_local_under (td : Bool) {root : String} (hr : root ≠ "")
    (cs : List FNode) (hwf : wfList cs = true) :
    ∀ e ∈ walk_local td cs root, underRoot root e.2.1 := by
  intro e he
  unfold walk_local at he
  have hmem : e ∈ levelFiles cs root ∨ e ∈ levelDirs cs root ∨
      e ∈ walk_local_subs td cs root := by
    cases td with
    | true =>
      rw [if_pos rfl] at he
      rcases List.mem_append.mp he with h2 | h2
      · rcases List.mem_append.mp h2 with h3 | h3
        · exact Or.inl h3
        · exact Or.inr (Or.inl h3)
      · exact Or.inr (Or.inr h2)
    | false =>
      rw [if_neg (by simp)] at he
      rcases List.mem_append.mp he with h2 | h2
      · exact Or.inr (Or.inr h2)
      · rcases List.mem_append.mp h2 with h3 | h3
        · exact Or.inl h3
        · exact Or.inr (Or.inl h3)
  rcases hmem with h3 | h3 | h3
  · exact levelFiles_under hr cs root hwf (Or.inr rfl) e h3
  · exact levelDirs_under hr cs root hwf (Or.inr rfl) e h3
  · exact walk_local_subs_under td hr cs root hwf (Or.inr rfl) e h3

/-! ### Helper lemmas about the deletion pass -/

theorem deleteStep_removed {ok : String → String → Bool} {dry : Bool} {files : DstList}
    {st st1 : DelState} {e : WalkEntry} (h : deleteStep ok dry files st e = .ok st1) :
    st1.removed = st.removed ∨ st1.removed = st.removed ++ [(e.1, e.2.1)] := by
  unfold deleteStep at h
  split at h
  · exact absurd h (by simp)
  · split at h
    · injection h with h2
      rw [← h2]
      exact Or.inl rfl
    · split at h
      · injection h with h2
        rw [← h2]
        exact Or.inl rfl
      · split at h
        · injection h with h2
          rw [← h2]
          exact Or.inr rfl
        · injection h with h2
          rw [← h2]
          exact Or.inl rfl

theorem delete_fold_removed_sub {ok : String → String → Bool} {dry : Bool} {files : DstList} :
    ∀ (walk : List WalkEntry) (st0 d : DelState),
      List.foldlM (deleteStep ok dry files) st0 walk = .ok d →
      ∀ pr ∈ d.removed, pr ∈ st0.removed ∨ ∃ e ∈ walk, pr = (e.1, e.2.1) := by
  intro walk
  induction walk with
  | nil =>
    intro st0 d h pr hpr
    have h2 : st0 = d := by
      have h3 : (Except.ok st0 : Except PyErr DelState) = .ok d := h
      injection h3
    rw [← h2] at hpr
    exact Or.inl hpr
  | cons a l ih =>
    intro st0 d h pr hpr
    rw [show List.foldlM (deleteStep ok dry files) st0 (a :: l) =
        (deleteStep ok dry files st0 a).bind
          (fun s => List.foldlM (deleteStep ok dry files) s l) from rfl] at h
    cases hs : deleteStep ok dry files st0 a with
    | error err => rw [hs] at h; exact absurd h (by simp [Except.bind])
    | ok st1 =>
      rw [hs] at h
      rcases ih st1 d h pr hpr with h2 | ⟨e, he, h3⟩
      · rcases deleteStep_removed hs with h4 | h4
        · rw [h4] at h2
          exact Or.inl h2
        · rw [h4] at h2
          rcases List.mem_append.mp h2 with h5 | h5
          · exact Or.inl h5
          · rcases List.mem_singleton.mp h5 with rfl
            exact Or.inr ⟨a, List.mem_cons_self a l, rfl⟩
      · exact Or.inr ⟨e, List.mem_cons_of_mem a he, h3⟩

/-- C9: for every nonempty root path and well-formed tree, both walkers in
both orders yield only strict descendants of the root (paths of the form
root-with-trailing-separators-stripped, a separator, then a nonempty
remainder) and never the root itself; consequently the deletion pass, which
only removes walked entries, never removes the destination root. -/
theorem claim_C9 (root : String) (cs : List FNode) (td : Bool)
    (hwf : wfList cs = true) (hr : root ≠ "") :
    (∀ e ∈ walk_remote td cs root, underRoot root e.2.1 ∧ e.2.1 ≠ root)
    ∧ (∀ e ∈ walk_local td cs root, underRoot root e.2.1 ∧ e.2.1 ≠ root)
    ∧ (∀ files dry ok fs d, delete_dst (walk_remote td cs root) files dry ok fs = .ok d →
        ∀ pr ∈ d.removed, pr.2 ≠ root)
    ∧ (∀ files dry ok fs d, delete_dst (walk_local td cs root) files dry ok fs = .ok d →
        ∀ pr ∈ d.removed, pr.2 ≠ root) := by
  have hrem : ∀ e ∈ walk_remote td cs root, underRoot root e.2.1 :=
    walk_remote_under td root hr cs root hwf (Or.inr rfl)
  have hloc : ∀ e ∈ walk_local td cs root, underRoot root e.2.1 :=
    walk_local_under td hr cs hwf
  refine ⟨fun e he => ⟨hrem e he, underRoot_ne_root (hrem e he)⟩,
    fun e he => ⟨hloc e he, underRoot_ne_root (hloc e he)⟩, ?_, ?_⟩
  · intro files dry ok fs d h pr hpr
    rcases delete_fold_removed_sub _ _ _ h pr hpr with h2 | ⟨e, he, rfl⟩
    · simp at h2
    · exact underRoot_ne_root (hrem e he)
  · intro files dry ok fs d h pr hpr
    rcases delete_fold_removed_sub _ _ _ h pr hpr with h2 | ⟨e, he, rfl⟩
    · simp at h2
    · exact underRoot_ne_root (hloc e he)

/-- Witness for C9: on the one-file tree below root /c, the walked file is
a strict descendant of /c and differs from it. -/
theorem claim_C9_wit :
    underRoot "/c" (pathJoin "/c" "x") ∧ pathJoin "/c" "x" ≠ "/c" :=
  (claim_C9 "/c" [.file "x" ⟨1, 2, 3⟩] false (by simp [wfList, wfName]) (by decide)).1
    ("file", pathJoin "/c" "x", some ⟨1, 2, 3⟩) (by simp [walk_remote])

/-! ### Helper lemmas about the walking loop -/

theorem push_file (d : DstList) (k v : String) :
    (d.push k v).file = d.file ++ (if k = "file" then [v] else []) := by
  unfold DstList.push
  by_cases h : k = "file"
  · rw [if_pos h, if_pos h]
  · rw [if_neg h, if_neg h]
    by_cases h2 : k = "dir"
    · rw [if_pos h2]
      simp
    · rw [if_neg h2]
      simp

theorem push_dir (d : DstList) (k v : String) :
    (d.push k v).dir = d.dir ++ (if k = "dir" then [v] else []) := by
  unfold DstList.push
  by_cases h : k = "file"
  · rw [if_pos h]
    have h2 : k ≠ "dir" := by rw [h]; decide
    rw [if_neg h2]
    simp
  · rw [if_neg h]
    by_cases h2 : k = "dir"
    · rw [if_pos h2, if_pos h2]
    · rw [if_neg h2, if_neg h2]
      simp

theorem processEntry_ok (cfg : Cfg) (st : SyncState) (e : WalkEntry) (h : GoodEntry e) :
    processEntry cfg st e = .ok (stepOk cfg st e) := by
  rcases e with ⟨k, path, stat?⟩
  rcases h with hk | ⟨hk, hs⟩
  · simp only at hk
    subst hk
    simp only [processEntry, stepOk, DstList.get?]
    simp
    split <;> rfl
  · simp only at hk hs
    subst hk
    cases stat? with
    | none => exact absurd rfl hs
    | some s =>
      simp only [processEntry, stepOk, DstList.get?]
      simp
      split
      · rfl
      · split <;> rfl

theorem sync_entries_ok (cfg : Cfg) :
    ∀ (entries : List WalkEntry) (st : SyncState), (∀ e ∈ entries, GoodEntry e) →
    sync_entries cfg entries st = .ok (entries.foldl (stepOk cfg) st) := by
  intro entries
  induction entries with
  | nil =>
    intro st _
    rfl
  | cons a l ih =>
    intro st h
    have h1 : sync_entries cfg (a :: l) st =
        (processEntry cfg st a).bind (fun s => sync_entries cfg l s) := rfl
    rw [h1, processEntry_ok cfg st a (h a (List.mem_cons_self a l))]
    show sync_entries cfg l (stepOk cfg st a) = _
    rw [ih _ (fun e he => h e (List.mem_cons_of_mem a he))]
    rfl

theorem stepOk_dst_list (cfg : Cfg) (st : SyncState) (e : WalkEntry) :
    (stepOk cfg st e).dst_list =
      if passes cfg e.2.1 = false then st.dst_list
      else st.dst_list.push e.1 (dstOf cfg e.2.1) := by
  unfold stepOk
  by_cases hp : passes cfg e.2.1 = false
  · rw [if_pos hp, if_pos hp]
  · rw [if_neg hp, if_neg hp]
    by_cases hd : e.1 = "dir"
    · rw [if_pos hd]
    · rw [if_neg hd]
      cases e.2.2 with
      | none => rfl
      | some s =>
        dsimp only
        split <;> rfl

theorem mkdir_foldl_preserve_some {dry : Bool} {mk : String → PStat} {v : Entry} :
    ∀ (ps : List String) (f : FS) (q : String), f q = some v →
    ps.foldl (mkdirStep dry mk) f q = some v := by
  intro ps
  induction ps with
  | nil =>
    intro f q h
    exact h
  | cons p rest ih =>
    intro f q h
    rw [List.foldl_cons]
    refine ih _ q ?_
    unfold mkdirStep
    by_cases h1 : (f p).isSome
    · rw [if_pos h1]
      exact h
    · rw [if_neg h1]
      by_cases h2 : dry
      · rw [if_pos h2]
        exact h
      · rw [if_neg h2]
        unfold fsInsert
        have hqp : q ≠ p := by
          intro heq
          rw [heq] at h
          rw [h] at h1
          exact h1 rfl
        rw [if_neg hqp]
        exact h

theorem mkdir_foldl_outside {dry : Bool} {mk : String → PStat} :
    ∀ (ps : List String) (f : FS) (q : String), q ∉ ps →
    ps.foldl (mkdirStep dry mk) f q = f q := by
  intro ps
  induction ps with
  | nil =>
    intro f q _
    rfl
  | cons p rest ih =>
    intro f q h
    rw [List.foldl_cons]
    have hq : q ∉ rest := fun h2 => h (List.mem_cons_of_mem p h2)
    rw [ih _ q hq]
    unfold mkdirStep
    by_cases h1 : (f p).isSome
    · rw [if_pos h1]
    · rw [if_neg h1]
      by_cases h2 : dry
      · rw [if_pos h2]
      · rw [if_neg h2]
        unfold fsInsert
        rw [if_neg (fun h3 => h (by rw [h3]; exact List.mem_cons_self p rest))]

theorem makedirs_preserve_some {remote dry : Bool} {mk : String → PStat} {fs : FS}
    {path q : String} {v : Entry} (h : fs q = some v) :
    makedirs_dst remote dry mk fs path q = some v := by
  unfold makedirs_dst
  by_cases hr : remote
  · rw [if_pos hr]
    exact mkdir_foldl_preserve_some _ _ _ h
  · rw [if_neg hr]
    by_cases h2 : (fs path).isSome
    · rw [if_pos h2]
      exact h
    · rw [if_neg h2]
      exact mkdir_foldl_preserve_some _ _ _ h

theorem makedirs_outside {remote dry : Bool} {mk : String → PStat} {fs : FS}
    {path q : String} (h : q ∉ ancestors (path.length + 1) path) :
    makedirs_dst remote dry mk fs path q = fs q := by
  unfold makedirs_dst
  by_cases hr : remote
  · rw [if_pos hr]
    exact mkdir_foldl_outside _ _ _ h
  · rw [if_neg hr]
    by_cases h2 : (fs path).isSome
    · rw [if_pos h2]
    · rw [if_neg h2]
      exact mkdir_foldl_outside _ _ _ h

theorem mkdir_foldl_dry {mk : String → PStat} :
    ∀ (ps : List String) (f : FS), ps.foldl (mkdirStep true mk) f = f := by
  intro ps
  induction ps with
  | nil =>
    intro f
    rfl
  | cons p rest ih =>
    intro f
    rw [List.foldl_cons]
    have h1 : mkdirStep true mk f p = f := by
      unfold mkdirStep
      by_cases h2 : (f p).isSome
      · rw [if_pos h2]
      · rw [if_neg h2, if_pos rfl]
    rw [h1, ih]

theorem makedirs_dry {remote : Bool} {mk : String → PStat} {fs : FS} {path : String} :
    makedirs_dst remote true mk fs path = fs := by
  unfold makedirs_dst
  by_cases hr : remote
  · rw [if_pos hr, mkdir_foldl_dry]
  · rw [if_neg hr]
    by_cases h2 : (fs path).isSome
    · rw [if_pos h2]
    · rw [if_neg h2, mkdir_foldl_dry]

/-! ### Claim C10 -/

/-- C10: a filter-passing entry whose kind is neither file nor dir makes
the pass fail at the manifest dictionary lookup with a KeyError before the
explicit unrecognized-kind ValueError branch can run; that branch is
unreachable, but the pass still fails fatally on such an entry. -/
theorem claim_C10 :
    (∀ (cfg : Cfg) (st : SyncState) (e : WalkEntry),
      processEntry cfg st e ≠ .error .valueError)
    ∧ (∀ (cfg : Cfg) (st : SyncState) (e : WalkEntry),
        e.1 ≠ "file" → e.1 ≠ "dir" → passes cfg e.2.1 = true →
        processEntry cfg st e = .error .keyError ∧
        sync_entries cfg [e] st = .error .keyError) := by
  constructor
  · intro cfg st e
    rcases e with ⟨k, path, stat?⟩
    unfold processEntry
    by_cases hp : passes cfg path = false
    · rw [if_pos hp]
      simp
    · rw [if_neg hp]
      cases hg : st.dst_list.get? k with
      | none => simp
      | some l =>
        simp only
        by_cases hd : k = "dir"
        · rw [if_pos hd]
          simp
        · rw [if_neg hd]
          by_cases hf : k = "file"
          · rw [if_pos hf]
            cases stat? with
            | none => simp
            | some s =>
              dsimp only
              split <;> simp
          · exfalso
            unfold DstList.get? at hg
            rw [if_neg hf, if_neg hd] at hg
            exact absurd hg (by simp)
  · intro cfg st e h1 h2 hp
    have hkey : processEntry cfg st e = .error .keyError := by
      unfold processEntry
      rw [if_neg (by rw [hp]; simp)]
      have hg : st.dst_list.get? e.1 = none := by
        unfold DstList.get?
        rw [if_neg h1, if_neg h2]
      rw [hg]
    refine ⟨hkey, ?_⟩
    show (processEntry cfg st e).bind _ = _
    rw [hkey]
    rfl

/-- Witness for C10: a filter-passing entry of kind symlink fails with a
KeyError, not with the ValueError of the explicit unknown-kind branch. -/
theorem claim_C10_wit :
    processEntry
      { includes := [], excludes := [], srcRoot := "/a", dstRoot := "/b",
        remote := true, dry := false, mkStat := fun _ => ⟨0, 0, 0⟩ }
      { fs := fun _ => none, total := 0, copies := 0, dst_list := ⟨[], []⟩ }
      ("symlink", "/a/x", none) = .error .keyError :=
  (claim_C10.2 _ _ ("symlink", "/a/x", none) (by decide) (by decide) (by decide)).1

theorem fileDsts_cons (cfg : Cfg) (a : WalkEntry) (l : List WalkEntry) :
    fileDsts cfg (a :: l) =
      (if passes cfg a.2.1 && (a.1 == "file") then [dstOf cfg a.2.1] else []) ++
        fileDsts cfg l := by
  unfold fileDsts
  rw [List.filter_cons]
  split
  · rw [List.map_cons]
    rfl
  · rfl

theorem dirDsts_cons (cfg : Cfg) (a : WalkEntry) (l : List WalkEntry) :
    dirDsts cfg (a :: l) =
      (if passes cfg a.2.1 && (a.1 == "dir") then [dstOf cfg a.2.1] else []) ++
        dirDsts cfg l := by
  unfold dirDsts
  rw [List.filter_cons]
  split
  · rw [List.map_cons]
    rfl
  · rfl

theorem foldl_manifest (cfg : Cfg) :
    ∀ (entries : List WalkEntry) (st : SyncState),
      ((entries.foldl (stepOk cfg) st).dst_list.file = st.dst_list.file ++ fileDsts cfg entries) ∧
      ((entries.foldl (stepOk cfg) st).dst_list.dir = st.dst_list.dir ++ dirDsts cfg entries) := by
  intro entries
  induction entries with
  | nil =>
    intro st
    simp [fileDsts, dirDsts]
  | cons a l ih =>
    intro st
    rw [List.foldl_cons]
    constructor
    · rw [(ih _).1, stepOk_dst_list, fileDsts_cons]
      by_cases hp : passes cfg a.2.1 = false
      · rw [if_pos hp, hp]
        simp
    
      · rw [if_neg hp]
        have hp2 : passes cfg a.2.1 = true := by
          revert hp
          cases passes cfg a.2.1 <;> simp
        rw [hp2, push_file]
        simp only [Bool.true_and]
        by_cases hf : a.1 = "file"
        · rw [if_pos hf]
          rw [show (a.1 == "file") = true from by rw [hf]; rfl]
          simp
        · rw [if_neg hf]
          rw [show (a.1 == "file") = false from by
            cases hb : (a.1 == "file")
            · rfl
            · exact absurd (by simpa using hb) hf]
          simp
    · rw [(ih _).2, stepOk_dst_list, dirDsts_cons]
      by_cases hp : passes cfg a.2.1 = false
      · rw [if_pos hp, hp]
        simp
      · rw [if_neg hp]
        have hp2 : passes cfg a.2.1 = true := by
          revert hp
          cases passes cfg a.2.1 <;> simp
        rw [hp2, push_dir]
        simp only [Bool.true_and]
        by_cases hf : a.1 = "dir"
        · rw [if_pos hf]
          rw [show (a.1 == "dir") = true from by rw [hf]; rfl]
          simp
        · rw [if_neg hf]
          rw [show (a.1 == "dir") = false from by
            cases hb : (a.1 == "dir")
            · rfl
            · exact absurd (by simpa using hb) hf]
          simp

/-- C8: the filter decision for every walked entry depends only on that
entry's own relative path: the final manifest lists are exactly the
destination paths of the passing entries of each kind, independent of any
other entry's outcome; concretely, on a tree whose only directory is
rejected by an exclude pattern matching exactly the name skip, the walker
still yields the directory's child file, and that file is copied (7 bytes
transferred, one copy, its destination recorded) while the rejected
directory is not recorded. -/
theorem claim_C8 :
    (∀ (cfg : Cfg) (entries : List WalkEntry) (st : SyncState),
      (∀ e ∈ entries, GoodEntry e) →
      ∃ st2, sync_entries cfg entries st = .ok st2 ∧
        st2.dst_list.file = st.dst_list.file ++ fileDsts cfg entries ∧
        st2.dst_list.dir = st.dst_list.dir ++ dirDsts cfg entries)
    ∧ (∃ st2,
        sync_entries
          { includes := [], excludes := [fun s => s == "skip"], srcRoot := "/a",
            dstRoot := "/b", remote := true, dry := false, mkStat := fun _ => ⟨0, 0, 0⟩ }
          (walk_remote true [.dir "skip" ⟨0, 5, 5⟩ [.file "keep.txt" ⟨7, 1, 2⟩]] "/a")
          { fs := fun _ => none, total := 0, copies := 0, dst_list := ⟨[], []⟩ } = .ok st2 ∧
        st2.total = 7 ∧ st2.copies = 1 ∧
        st2.dst_list = ⟨[pathJoin "/b" "skip/keep.txt"], []⟩) := by
  constructor
  · intro cfg entries st h
    refine ⟨entries.foldl (stepOk cfg) st, sync_entries_ok cfg entries st h, ?_, ?_⟩
    · exact (foldl_manifest cfg entries st).1
    · exact (foldl_manifest cfg entries st).2
  · have hw : walk_remote true [.dir "skip" ⟨0, 5, 5⟩ [.file "keep.txt" ⟨7, 1, 2⟩]] "/a" =
        [("dir", pathJoin "/a" "skip", some ⟨0, 5, 5⟩),
         ("file", pathJoin (pathJoin "/a" "skip") "keep.txt", some ⟨7, 1, 2⟩)] := by
      simp [walk_remote]
    rw [hw]
    exact ⟨_, rfl, rfl, rfl, rfl⟩

/-- Witness for C8: instantiates the manifest characterization on a
one-entry walk, showing the passing file's destination is recorded. -/
theorem claim_C8_wit :
    ∃ st2, sync_entries
        { includes := [], excludes := [], srcRoot := "/a", dstRoot := "/b",
          remote := true, dry := false, mkStat := fun _ => ⟨0, 0, 0⟩ }
        [("file", "/a/x", some ⟨3, 0, 0⟩)]
        { fs := fun _ => none, total := 0, copies := 0, dst_list := ⟨[], []⟩ } = .ok st2 ∧
      st2.dst_list.file = [] ++ fileDsts
        { includes := [], excludes := [], srcRoot := "/a", dstRoot := "/b",
          remote := true, dry := false, mkStat := fun _ => ⟨0, 0, 0⟩ }
        [("file", "/a/x", some ⟨3, 0, 0⟩)] ∧
      st2.dst_list.dir = [] ++ dirDsts
        { includes := [], excludes := [], srcRoot := "/a", dstRoot := "/b",
          remote := true, dry := false, mkStat := fun _ => ⟨0, 0, 0⟩ }
        [("file", "/a/x", some ⟨3, 0, 0⟩)] :=
  claim_C8.1 _ _ _ (by
    intro e he
    rcases List.mem_singleton.mp he with rfl
    exact Or.inr ⟨rfl, by simp⟩)

theorem get?_of_good {d : DstList} {k : String} (h : k = "file" ∨ k = "dir") :
    d.get? k = some (d.getL k) := by
  unfold DstList.get? DstList.getL
  rcases h with h | h
  · rw [if_pos h, if_pos h]
  · by_cases h2 : k = "file"
    · rw [if_pos h2, if_pos h2]
    · rw [if_neg h2, if_neg h2, if_pos h, if_pos h]
theorem delete_fold_spec (ok : String → String → Bool) (files : DstList) :
    ∀ (walk : List WalkEntry) (st0 : DelState),
      (∀ e ∈ walk, e.1 = "file" ∨ e.1 = "dir") →
      ∃ d, List.foldlM (deleteStep ok false files) st0 walk = .ok d ∧
        d.attempted = st0.attempted ++
          ((walk.map fun e => (e.1, e.2.1)).filter fun pr =>
            !((files.getL pr.1).contains pr.2)) ∧
        d.removed = st0.removed ++
          ((walk.map fun e => (e.1, e.2.1)).filter fun pr =>
            !((files.getL pr.1).contains pr.2) && ok pr.1 pr.2) ∧
        ∀ q, d.fs q =
          if ((walk.map fun e => (e.1, e.2.1)).filter fun pr =>
              !((files.getL pr.1).contains pr.2) && ok pr.1 pr.2).any (fun pr => pr.2 == q)
          then none else st0.fs q := by
  intro walk
  induction walk with
  | nil =>
    intro st0 _
    refine ⟨st0, rfl, by simp, by simp, fun q => by simp⟩
  | cons a l ih =>
    intro st0 hk
    have hka : a.1 = "file" ∨ a.1 = "dir" := hk a (List.mem_cons_self a l)
    have hkl : ∀ e ∈ l, e.1 = "file" ∨ e.1 = "dir" :=
      fun e he => hk e (List.mem_cons_of_mem a he)
    have hfold : List.foldlM (deleteStep ok false files) st0 (a :: l) =
        (deleteStep ok false files st0 a).bind
          (fun s => List.foldlM (deleteStep ok false files) s l) := rfl
    by_cases hc : (files.getL a.1).contains a.2.1
    · have hmem : a.2.1 ∈ files.getL a.1 := by simpa using hc
      have hfa : (((a :: l).map fun e => (e.1, e.2.1)).filter fun pr =>
          !((files.getL pr.1).contains pr.2)) =
          ((l.map fun e => (e.1, e.2.1)).filter fun pr =>
            !((files.getL pr.1).contains pr.2)) := by
        rw [List.map_cons, List.filter_cons, if_neg (by simp [hmem])]
      have hfr : (((a :: l).map fun e => (e.1, e.2.1)).filter fun pr =>
          !((files.getL pr.1).contains pr.2) && ok pr.1 pr.2) =
          ((l.map fun e => (e.1, e.2.1)).filter fun pr =>
            !((files.getL pr.1).contains pr.2) && ok pr.1 pr.2) := by
        rw [List.map_cons, List.filter_cons, if_neg (by simp [hmem])]
      have hstep : deleteStep ok false files st0 a = .ok st0 := by
        unfold deleteStep
        rw [get?_of_good hka]
        dsimp only
        rw [if_pos hc]
      rcases ih st0 hkl with ⟨d, hd, h1, h2, h3⟩
      refine ⟨d, ?_, ?_, ?_, ?_⟩
      · rw [hfold, hstep]
        exact hd
      · rw [h1, hfa]
      · rw [h2, hfr]
      · intro q
        rw [h3 q, hfr]
    · have hmem : a.2.1 ∉ files.getL a.1 := by simpa using hc
      have hfa : (((a :: l).map fun e => (e.1, e.2.1)).filter fun pr =>
          !((files.getL pr.1).contains pr.2)) =
          (a.1, a.2.1) :: ((l.map fun e => (e.1, e.2.1)).filter fun pr =>
            !((files.getL pr.1).contains pr.2)) := by
        rw [List.map_cons, List.filter_cons, if_pos (by simp [hmem])]
      by_cases ho : ok a.1 a.2.1
      · have hfr : (((a :: l).map fun e => (e.1, e.2.1)).filter fun pr =>
            !((files.getL pr.1).contains pr.2) && ok pr.1 pr.2) =
            (a.1, a.2.1) :: ((l.map fun e => (e.1, e.2.1)).filter fun pr =>
              !((files.getL pr.1).contains pr.2) && ok pr.1 pr.2) := by
          rw [List.map_cons, List.filter_cons, if_pos (by simp [hmem, ho])]
        have hstep : deleteStep ok false files st0 a = .ok
            { fs := fsRemove st0.fs a.2.1,
              attempted := st0.attempted ++ [(a.1, a.2.1)],
              removed := st0.removed ++ [(a.1, a.2.1)] } := by
          unfold deleteStep
          rw [get?_of_good hka]
          dsimp only
          rw [if_neg hc, if_neg (by simp), if_pos ho]
        rcases ih ({ fs := fsRemove st0.fs a.2.1,
                     attempted := st0.attempted ++ [(a.1, a.2.1)],
                     removed := st0.removed ++ [(a.1, a.2.1)] }) hkl with ⟨d, hd, h1, h2, h3⟩
        refine ⟨d, ?_, ?_, ?_, ?_⟩
        · rw [hfold, hstep]
          exact hd
        · rw [h1, hfa]
          simp
        · rw [h2, hfr]
          simp
        · intro q
          rw [h3 q, hfr, List.any_cons]
          by_cases hq : a.2.1 = q
          · have hbq : ((a.1, a.2.1).2 == q) = true := by simp [hq]
            rw [hbq]
            simp only [Bool.true_or]
            split
            · simp
            · simp [fsRemove, hq]
          · have hbq : ((a.1, a.2.1).2 == q) = false := by simp [hq]
            rw [hbq]
            simp only [Bool.false_or]
            split
            · rfl
            · show fsRemove st0.fs a.2.1 q = st0.fs q
              unfold fsRemove
              rw [if_neg (fun h => hq h.symm)]
      · have hfr : (((a :: l).map fun e => (e.1, e.2.1)).filter fun pr =>
            !((files.getL pr.1).contains pr.2) && ok pr.1 pr.2) =
            ((l.map fun e => (e.1, e.2.1)).filter fun pr =>
              !((files.getL pr.1).contains pr.2) && ok pr.1 pr.2) := by
          rw [List.map_cons, List.filter_cons, if_neg (by simp [hmem, ho])]
        have hstep : deleteStep ok false files st0 a = .ok
            { fs := st0.fs,
              attempted := st0.attempted ++ [(a.1, a.2.1)],
              removed := st0.removed } := by
          unfold deleteStep
          rw [get?_of_good hka]
          dsimp only
          rw [if_neg hc, if_neg (by simp), if_neg ho]
        rcases ih ({ fs := st0.fs,
                     attempted := st0.attempted ++ [(a.1, a.2.1)],
                     removed := st0.removed }) hkl with ⟨d, hd, h1, h2, h3⟩
        refine ⟨d, ?_, ?_, ?_, ?_⟩
        · rw [hfold, hstep]
          exact hd
        · rw [h1, hfa]
          simp
        · rw [h2, hfr]
        · intro q
          rw [h3 q, hfr]

theorem deleteStep_removed_strong {ok : String → String → Bool} {dry : Bool}
    {files : DstList} {st st1 : DelState} {e : WalkEntry}
    (h : deleteStep ok dry files st e = .ok st1) :
    st1.removed = st.removed ∨
      (st1.removed = st.removed ++ [(e.1, e.2.1)] ∧ e.2.1 ∉ files.getL e.1) := by
  unfold deleteStep at h
  split at h
  · exact absurd h (by simp)
  · next l hl =>
    split at h
    · injection h with h2
      rw [← h2]
      exact Or.inl rfl
    · next hc =>
      have hlg : l = files.getL e.1 := by
        unfold DstList.get? at hl
        unfold DstList.getL
        by_cases h1 : e.1 = "file"
        · rw [if_pos h1] at hl ⊢
          injection hl with h3
          exact h3.symm
        · rw [if_neg h1] at hl ⊢
          by_cases h2 : e.1 = "dir"
          · rw [if_pos h2] at hl ⊢
            injection hl with h3
            exact h3.symm
          · rw [if_neg h2] at hl
            exact absurd hl (by simp)
      have hnm : e.2.1 ∉ files.getL e.1 := by
        rw [← hlg]
        simpa using hc
      split at h
      · injection h with h2
        rw [← h2]
        exact Or.inl rfl
      · split at h
        · injection h with h2
          rw [← h2]
          exact Or.inr ⟨rfl, hnm⟩
        · injection h with h2
          rw [← h2]
          exact Or.inl rfl

theorem fold_removed_not_mem {ok : String → String → Bool} {dry : Bool} {files : DstList} :
    ∀ (walk : List WalkEntry) (st0 d : DelState),
      List.foldlM (deleteStep ok dry files) st0 walk = .ok d →
      ∀ pr ∈ d.removed, pr ∈ st0.removed ∨ pr.2 ∉ files.getL pr.1 := by
  intro walk
  induction walk with
  | nil =>
    intro st0 d h pr hpr
    have h2 : st0 = d := by
      have h3 : (Except.ok st0 : Except PyErr DelState) = .ok d := h
      injection h3
    rw [← h2] at hpr
    exact Or.inl hpr
  | cons a l ih =>
    intro st0 d h pr hpr
    rw [show List.foldlM (deleteStep ok dry files) st0 (a :: l) =
        (deleteStep ok dry files st0 a).bind
          (fun s => List.foldlM (deleteStep ok dry files) s l) from rfl] at h
    cases hs : deleteStep ok dry files st0 a with
    | error err =>
      rw [hs] at h
      exact absurd h (by simp [Except.bind])
    | ok st1 =>
      rw [hs] at h
      rcases ih st1 d h pr hpr with h2 | h2
      · rcases deleteStep_removed_strong hs with h4 | ⟨h4, h5⟩
        · rw [h4] at h2
          exact Or.inl h2
        · rw [h4] at h2
          rcases List.mem_append.mp h2 with h6 | h6
          · exact Or.inl h6
          · rcases List.mem_singleton.mp h6 with rfl
            exact Or.inr h5
      · exact Or.inr h2

/-- C5: with delete enabled and a real (non-dry) run, the deletion pass
attempts removal of exactly those walked destination entries whose path is
absent from the manifest list for the entry's kind, actually removes those
of them whose individual removal succeeds (a failing removal is skipped
without aborting the rest, which the filter over the whole walk expresses),
and leaves every other destination path untouched; moreover the destination
path of any filter-passing source file recorded by the walking loop is
never removed. -/
theorem claim_C5 :
    (∀ (walk : List WalkEntry) (files : DstList) (ok : String → String → Bool) (fs : FS),
      (∀ e ∈ walk, e.1 = "file" ∨ e.1 = "dir") →
      ∃ d, delete_dst walk files false ok fs = .ok d ∧
        d.attempted = ((walk.map fun e => (e.1, e.2.1)).filter fun pr =>
          !((files.getL pr.1).contains pr.2)) ∧
        d.removed = ((walk.map fun e => (e.1, e.2.1)).filter fun pr =>
          !((files.getL pr.1).contains pr.2) && ok pr.1 pr.2) ∧
        (∀ q, d.fs q = if d.removed.any (fun pr => pr.2 == q) then none else fs q))
    ∧ (∀ (cfg : Cfg) (entries : List WalkEntry) (st st2 : SyncState)
        (walk : List WalkEntry) (ok : String → String → Bool) (fs : FS) (d : DelState)
        (dry : Bool),
        (∀ e ∈ entries, GoodEntry e) →
        sync_entries cfg entries st = .ok st2 →
        delete_dst walk st2.dst_list dry ok fs = .ok d →
        ∀ e ∈ entries, passes cfg e.2.1 = true → e.1 = "file" →
          ("file", dstOf cfg e.2.1) ∉ d.removed) := by
  constructor
  · intro walk files ok fs hk
    rcases delete_fold_spec ok files walk { fs := fs, attempted := [], removed := [] } hk
      with ⟨d, hd, h1, h2, h3⟩
    refine ⟨d, hd, ?_, ?_, ?_⟩
    · rw [h1]
      rfl
    · rw [h2]
      rfl
    · intro q
      rw [h3 q, h2]
      rfl
  · intro cfg entries st st2 walk ok fs d dry hg hsync hdel e he hpass hfile hmem
    have hst2 : st2 = entries.foldl (stepOk cfg) st := by
      have h4 := (sync_entries_ok cfg entries st hg).symm.trans hsync
      injection h4 with h5
      exact h5.symm
    have hfd : dstOf cfg e.2.1 ∈ st2.dst_list.file := by
      rw [hst2, (foldl_manifest cfg entries st).1]
      refine List.mem_append.mpr (Or.inr ?_)
      unfold fileDsts
      exact List.mem_map.mpr ⟨e, List.mem_filter.mpr ⟨he, by simp [hpass, hfile]⟩, rfl⟩
    rcases fold_removed_not_mem walk _ d hdel _ hmem with h5 | h5
    · simp at h5
    · exact h5 hfd

/-- Witness for C5 at a concrete deletion pass: a walked destination file
absent from the manifest is removed. -/
theorem claim_C5_wit :
    ∃ d, delete_dst [("file", "/b/old", none)] ⟨["/b/keep"], []⟩ false
        (fun _ _ => true) (fun _ => none) = .ok d ∧
      d.removed = [("file", "/b/old")] := by
  rcases claim_C5.1 [("file", "/b/old", none)] ⟨["/b/keep"], []⟩ (fun _ _ => true)
      (fun _ => none) (by
        intro e he
        rcases List.mem_singleton.mp he with rfl
        exact Or.inl rfl) with ⟨d, hd, h1, h2, h3⟩
  refine ⟨d, hd, ?_⟩
  rw [h2]
  rfl

/-! ### Helper lemmas for the bottom-up ordering of the remote walker -/

theorem listPre_total {a b c : List Char} (h1 : ∃ t, c = a ++ t) (h2 : ∃ t, c = b ++ t) :
    (∃ t, b = a ++ t) ∨ (∃ t, a = b ++ t) := by
  induction a generalizing b c with
  | nil => exact Or.inl ⟨b, rfl⟩
  | cons x xs ih =>
    cases b with
    | nil => exact Or.inr ⟨x :: xs, rfl⟩
    | cons y ys =>
      rcases h1 with ⟨t1, rfl⟩
      rcases h2 with ⟨t2, ht⟩
      rw [List.cons_append, List.cons_append] at ht
      injection ht with hxy htl
      rcases ih (b := ys) (c := xs ++ t1) ⟨t1, rfl⟩ ⟨t2, htl⟩ with ⟨w, hw⟩ | ⟨w, hw⟩
      · exact Or.inl ⟨w, by rw [List.cons_append, ← hw, hxy]⟩
      · exact Or.inr ⟨w, by rw [List.cons_append, ← hw, hxy]⟩

theorem no_sibling_desc {n1 n2 u v : List Char}
    (hs1 : ∀ c ∈ n1, c ≠ '/') (hs2 : ∀ c ∈ n2, c ≠ '/')
    (hn1 : n1 ≠ []) (hn2 : n2 ≠ []) (hne : n1 ≠ n2)
    (hu : u = [] ∨ u.head? = some '/') (hv : v = [] ∨ v.head? = some '/') :
    ¬ ∃ t, n2 ++ v = (n1 ++ u ++ ['/']) ++ t := by
  rintro ⟨t, ht⟩
  have hp1 : ∃ w, n2 ++ v = n1 ++ w := ⟨u ++ ['/'] ++ t, by rw [ht]; simp⟩
  have hp2 : ∃ w, n2 ++ v = n2 ++ w := ⟨v, rfl⟩
  rcases listPre_total hp1 hp2 with ⟨w, hw⟩ | ⟨w, hw⟩
  · cases w with
    | nil =>
      rw [List.append_nil] at hw
      exact hne hw.symm
    | cons w0 ws =>
      have hw0 : w0 ≠ '/' := hs2 w0 (by rw [hw]; simp)
      have h2 : w0 :: (ws ++ v) = u ++ '/' :: t := by
        have h3 : n1 ++ (w0 :: (ws ++ v)) = n1 ++ (u ++ '/' :: t) := by
          rw [show n1 ++ (w0 :: (ws ++ v)) = (n1 ++ w0 :: ws) ++ v by simp, ← hw, ht]
          simp
        exact List.append_cancel_left h3
      rcases hu with rfl | hhu
      · rw [List.nil_append] at h2
        injection h2 with ha
        exact hw0 ha
      · cases u with
        | nil => simp at hhu
        | cons u0 us =>
          have hu0 : u0 = '/' := by simpa using hhu
          rw [List.cons_append] at h2
          injection h2 with ha
          exact hs2 w0 (by rw [hw]; simp) (ha.trans hu0)
  · cases w with
    | nil =>
      rw [List.append_nil] at hw
      exact hne hw
    | cons w0 ws =>
      have hw0 : w0 ≠ '/' := hs1 w0 (by rw [hw]; simp)
      have h2 : v = w0 :: (ws ++ u ++ '/' :: t) := by
        have h3 : n2 ++ v = n2 ++ (w0 :: (ws ++ u ++ '/' :: t)) := by
          rw [ht, hw]
          simp
        exact List.append_cancel_left h3
      rcases hv with rfl | hhv
      · simp at h2
      · cases v with
        | nil => simp at h2
        | cons v0 vs =>
          have hv0 : v0 = '/' := by simpa using hhv
          injection h2 with ha
          exact hw0 (ha.symm.trans hv0)

theorem wfName_head {n : String} (hn : wfName n = true) : ¬ n.data.head? = some '/' := by
  rcases wfName_props hn with ⟨hn1, hn2⟩
  cases hd : n.data with
  | nil => simp
  | cons a as =>
    simp only [List.head?]
    intro hcontra
    injection hcontra with h3
    exact hn2 a (by rw [hd]; exact List.mem_cons_self a as) h3

theorem pathJoin_wf {p n : String} (hn : wfName n = true) :
    ¬ ((pathJoin p n).data = [] ∨ (pathJoin p n).data.getLast? = some '/') := by
  rcases wfName_props hn with ⟨hn1, hn2⟩
  rcases List.eq_nil_or_concat n.data with hc | ⟨n2, d, hnd⟩
  · exact absurd hc hn1
  have hd : d ≠ '/' := hn2 d (by rw [hnd]; simp)
  rw [pathJoin_data (wfName_head hn)]
  rintro (h1 | h1)
  · rw [hnd] at h1
    simp [List.concat_eq_append] at h1
  · rw [hnd, List.concat_eq_append, ← List.append_assoc, List.getLast?_concat] at h1
    injection h1 with h2
    exact hd h2

theorem pathJoin_expand {q m : String} (hm : wfName m = true)
    (hq : ¬ (q.data = [] ∨ q.data.getLast? = some '/')) :
    (pathJoin q m).data = q.data ++ '/' :: m.data := by
  rw [pathJoin_data (wfName_head hm), if_neg hq]
  simp

theorem pathJoin_len {p n : String} (hn : wfName n = true) :
    p.data.length < (pathJoin p n).data.length := by
  rcases wfName_props hn with ⟨hn1, hn2⟩
  rw [pathJoin_data (wfName_head hn)]
  have h2 : 1 ≤ n.data.length := by
    cases hd : n.data with
    | nil => exact absurd hd hn1
    | cons a as => simp
  split <;> (simp only [List.length_append, List.length_nil, List.length_cons]; omega)

theorem wf_names : ∀ (cs : List FNode), wfList cs = true →
    ∀ c ∈ cs, wfName c.name = true := by
  intro cs
  induction cs with
  | nil =>
    intro _ c hc
    simp at hc
  | cons a rest ih =>
    intro hwf c hc
    cases a with
    | file n st =>
      rcases wfList_file hwf with ⟨hn, _, hrest⟩
      rcases List.mem_cons.mp hc with rfl | hc2
      · exact hn
      · exact ih hrest c hc2
    | dir n st ch =>
      rcases wfList_dir hwf with ⟨hn, _, _, hrest⟩
      rcases List.mem_cons.mp hc with rfl | hc2
      · exact hn
      · exact ih hrest c hc2

theorem walk_remote_shape (td : Bool) :
    ∀ (cs : List FNode) (p : String), wfList cs = true →
    ∀ e ∈ walk_remote td cs p, ∃ c ∈ cs, ∃ u, (u = [] ∨ u.head? = some '/') ∧
      e.2.1.data = (pathJoin p c.name).data ++ u := by
  intro cs p
  induction cs, p using walk_remote.induct td with
  | case1 p =>
    intro _ e he
    simp [walk_remote] at he
  | case2 n st rest p ih =>
    intro hwf e he
    rcases wfList_file hwf with ⟨hn, _, hrest⟩
    rw [walk_remote] at he
    rcases List.mem_cons.mp he with rfl | he2
    · exact ⟨.file n st, List.mem_cons_self _ _, [], Or.inl rfl, by simp [FNode.name]⟩
    · rcases ih hrest e he2 with ⟨c, hc, u, hu, hp⟩
      exact ⟨c, List.mem_cons_of_mem _ hc, u, hu, hp⟩
  | case3 n st ch rest p ih1 ih2 =>
    intro hwf e he
    rcases wfList_dir hwf with ⟨hn, _, hch, hrest⟩
    rw [walk_remote] at he
    rcases List.mem_append.mp he with he1 | he2
    · have hmem : e = ("dir", pathJoin p n, none) ∨ e = ("dir", pathJoin p n, some st) ∨
          e ∈ walk_remote td ch (pathJoin p n) := by
        cases td with
        | true =>
          rw [if_pos rfl] at he1
          rcases List.mem_cons.mp he1 with rfl | h3
          · exact Or.inr (Or.inl rfl)
          · exact Or.inr (Or.inr h3)
        | false =>
          rw [if_neg (by simp)] at he1
          rcases List.mem_append.mp he1 with h3 | h3
          · exact Or.inr (Or.inr h3)
          · rcases List.mem_singleton.mp h3 with rfl
            exact Or.inl rfl
      rcases hmem with rfl | rfl | h3
      · exact ⟨.dir n st ch, List.mem_cons_self _ _, [], Or.inl rfl, by simp [FNode.name]⟩
      · exact ⟨.dir n st ch, List.mem_cons_self _ _, [], Or.inl rfl, by simp [FNode.name]⟩
      · rcases ih1 hch e h3 with ⟨c, hc, u, hu, hp⟩
        have hm : wfName c.name = true := wf_names ch hch c hc
        refine ⟨.dir n st ch, List.mem_cons_self _ _, '/' :: (c.name.data ++ u), by simp, ?_⟩
        rw [hp, pathJoin_expand hm (pathJoin_wf hn)]
        simp [FNode.name]
    · rcases ih2 hrest e he2 with ⟨c, hc, u, hu, hp⟩
      exact ⟨c, List.mem_cons_of_mem _ hc, u, hu, hp⟩

theorem str_data_inj {a b : String} (h : a.data = b.data) : a = b := by
  cases a
  cases b
  exact congrArg String.mk h

theorem walk_remote_pairwise :
    ∀ (cs : List FNode) (p : String), wfList cs = true →
    (walk_remote false cs p).Pairwise
      (fun a b => a.1 = "dir" → ¬ descOf a.2.1 b.2.1) := by
  intro cs p
  induction cs, p using walk_remote.induct false with
  | case1 p =>
    intro _
    simp [walk_remote]
  | case2 n st rest p ih =>
    intro hwf
    rcases wfList_file hwf with ⟨hn, _, hrest⟩
    rw [walk_remote]
    refine List.Pairwise.cons ?_ (ih hrest)
    intro b _ hdir
    simp at hdir
  | case3 n st ch rest p ih1 ih2 =>
    intro hwf
    rcases wfList_dir hwf with ⟨hn, hcont, hch, hrest⟩
    have hnm : n ∉ rest.map FNode.name := by simpa using hcont
    have heq : walk_remote false (FNode.dir n st ch :: rest) p =
        (walk_remote false ch (pathJoin p n) ++ [("dir", pathJoin p n, none)]) ++
          walk_remote false rest p := by
      rw [walk_remote]
      simp
    rw [heq, List.pairwise_append]
    refine ⟨?_, ih2 hrest, ?_⟩
    · rw [List.pairwise_append]
      refine ⟨ih1 hch, by simp, ?_⟩
      intro a ha b hb hdir
      rcases List.mem_singleton.mp hb with rfl
      rintro ⟨t, ht⟩
      rcases walk_remote_shape false ch (pathJoin p n) hch a ha with ⟨c, hc, u, hu, hpd⟩
      have hlen := pathJoin_len (wf_names ch hch c hc) (p := pathJoin p n)
      have h1 : (pathJoin p n).data.length < a.2.1.data.length := by
        rw [hpd]
        simp only [List.length_append]
        omega
      have h2 := congrArg List.length ht
      simp only [List.length_append, List.length_cons] at h2
      omega
    · intro a ha b hb hdir hdesc
      rcases walk_remote_shape false rest p hrest b hb with ⟨c, hc, v, hv, hbd⟩
      have hm : wfName c.name = true := wf_names rest hrest c hc
      have hnn : n.data ≠ c.name.data := by
        intro heqn
        exact hnm (by rw [str_data_inj heqn]; exact List.mem_map.mpr ⟨c, hc, rfl⟩)
      have hau : ∃ ua, (ua = [] ∨ ua.head? = some '/') ∧
          a.2.1.data = (pathJoin p n).data ++ ua := by
        rcases List.mem_append.mp ha with ha1 | ha1
        · rcases walk_remote_shape false ch (pathJoin p n) hch a ha1 with ⟨c2, hc2, u2, hu2, h3⟩
          refine ⟨'/' :: (c2.name.data ++ u2), by simp, ?_⟩
          rw [h3, pathJoin_expand (wf_names ch hch c2 hc2) (pathJoin_wf hn)]
          simp
        · rcases List.mem_singleton.mp ha1 with rfl
          exact ⟨[], Or.inl rfl, by simp⟩
      rcases hau with ⟨ua, hua, had⟩
      rcases hdesc with ⟨t, ht⟩
      rw [hbd, had, pathJoin_data (wfName_head hn), pathJoin_data (wfName_head hm)] at ht
      simp only [List.append_assoc] at ht
      have h4 := List.append_cancel_left (List.append_cancel_left ht)
      rcases wfName_props hn with ⟨hn1, hn2⟩
      rcases wfName_props hm with ⟨hm1, hm2⟩
      exact no_sibling_desc hn2 hm2 hn1 hm1 hnn hua hv ⟨t, by rw [h4]; simp⟩

theorem walk_remote_meta :
    ∀ (cs : List FNode) (p : String), ∀ e ∈ walk_remote false cs p,
      e.1 = "dir" → e.2.2 = none := by
  intro cs p
  induction cs, p using walk_remote.induct false with
  | case1 p =>
    intro e he
    simp [walk_remote] at he
  | case2 n st rest p ih =>
    intro e he
    rw [walk_remote] at he
    rcases List.mem_cons.mp he with rfl | he2
    · intro hdir
      simp at hdir
    · exact ih e he2
  | case3 n st ch rest p ih1 ih2 =>
    intro e he
    rw [walk_remote] at he
    rcases List.mem_append.mp he with he1 | he2
    · rw [if_neg (by simp)] at he1
      rcases List.mem_append.mp he1 with h3 | h3
      · exact ih1 e h3
      · rcases List.mem_singleton.mp h3 with rfl
        intro _
        rfl
    · exact ih2 e he2

/-- C7: in the bottom-up remote walk of a well-formed tree, no entry lying
strictly below a directory appears after that directory (so a directory is
yielded only after its whole subtree), directory entries carry no metadata
on this path, and a directory whose only content is a stale file has the
file removed and then the directory itself removed within one deletion
pass. -/
theorem claim_C7 (cs : List FNode) (p : String) (hwf : wfList cs = true) :
    (walk_remote false cs p).Pairwise
      (fun a b => a.1 = "dir" → ¬ descOf a.2.1 b.2.1)
    ∧ (∀ e ∈ walk_remote false cs p, e.1 = "dir" → e.2.2 = none)
    ∧ (∀ st0 st1 : PStat,
        walk_remote false [.dir "d" st0 [.file "f" st1]] "/r" =
          [("file", pathJoin (pathJoin "/r" "d") "f", some st1),
           ("dir", pathJoin "/r" "d", none)]
        ∧ ∃ d, delete_dst (walk_remote false [.dir "d" st0 [.file "f" st1]] "/r")
            ⟨[], []⟩ false (fun _ _ => true) (fun _ => none) = .ok d ∧
          d.removed = [("file", pathJoin (pathJoin "/r" "d") "f"),
                       ("dir", pathJoin "/r" "d")]) := by
  refine ⟨walk_remote_pairwise cs p hwf, walk_remote_meta cs p, ?_⟩
  intro st0 st1
  have hw : walk_remote false [.dir "d" st0 [.file "f" st1]] "/r" =
      [("file", pathJoin (pathJoin "/r" "d") "f", some st1),
       ("dir", pathJoin "/r" "d", none)] := by
    simp [walk_remote]
  refine ⟨hw, ?_⟩
  rw [hw]
  exact ⟨_, rfl, rfl⟩

/-- Witness for C7: on the concrete one-directory tree, the stale file and
then its parent directory are both removed by a single deletion pass. -/
theorem claim_C7_wit :
    ∃ d, delete_dst (walk_remote false [.dir "d" ⟨0, 0, 0⟩ [.file "f" ⟨1, 2, 3⟩]] "/r")
        ⟨[], []⟩ false (fun _ _ => true) (fun _ => none) = .ok d ∧
      d.removed = [("file", pathJoin (pathJoin "/r" "d") "f"), ("dir", pathJoin "/r" "d")] :=
  ((claim_C7 [.dir "d" ⟨0, 0, 0⟩ [.file "f" ⟨1, 2, 3⟩]] "/r"
    (by simp [wfList, wfName])).2.2 ⟨0, 0, 0⟩ ⟨1, 2, 3⟩).2

/-! ### Helper lemmas for idempotence and dry-run analysis -/

theorem validate_self (s : PStat) :
    validate_dst (some { st_size := s.st_size, st_mtime := s.st_mtime, st_atime := s.st_atime })
      s = true := by
  show (if |s.st_mtime - s.st_mtime| > MTIME_TOLERANCE then false
        else if s.st_size ≠ s.st_size then false else true) = true
  unfold MTIME_TOLERANCE
  rw [if_neg (by simp), if_neg (by simp)]

theorem kindStr_good (en : Entry) : en.kindStr = "file" ∨ en.kindStr = "dir" := by
  cases en with
  | dir st => exact Or.inr rfl
  | file st => exact Or.inl rfl

theorem mem_fileDsts {cfg : Cfg} {entries : List WalkEntry} {e : WalkEntry}
    (he : e ∈ entries) (hp : passes cfg e.2.1 = true) (hf : e.1 = "file") :
    dstOf cfg e.2.1 ∈ fileDsts cfg entries := by
  unfold fileDsts
  exact List.mem_map.mpr ⟨e, List.mem_filter.mpr ⟨he, by simp [hp, hf]⟩, rfl⟩

theorem stepOk_dry {cfg : Cfg} (hdry : cfg.dry = true) (st : SyncState) (e : WalkEntry) :
    (stepOk cfg st e).fs = st.fs ∧ (stepOk cfg st e).copies = st.copies := by
  unfold stepOk
  by_cases hp : passes cfg e.2.1 = false
  · rw [if_pos hp]
    exact ⟨rfl, rfl⟩
  · rw [if_neg hp]
    by_cases hd : e.1 = "dir"
    · rw [if_pos hd]
      refine ⟨?_, rfl⟩
      show makedirs_dst cfg.remote cfg.dry cfg.mkStat st.fs (dstOf cfg e.2.1) = st.fs
      rw [hdry]
      exact makedirs_dry
    · rw [if_neg hd]
      cases e.2.2 with
      | none => exact ⟨rfl, rfl⟩
      | some s =>
        rw [hdry]
        dsimp only
        split
        · exact ⟨rfl, rfl⟩
        · exact ⟨rfl, by simp⟩

theorem fold_dry {cfg : Cfg} (hdry : cfg.dry = true) :
    ∀ (entries : List WalkEntry) (st : SyncState),
      (entries.foldl (stepOk cfg) st).fs = st.fs ∧
      (entries.foldl (stepOk cfg) st).copies = st.copies := by
  intro entries
  induction entries with
  | nil =>
    intro st
    exact ⟨rfl, rfl⟩
  | cons a l ih =>
    intro st
    rw [List.foldl_cons]
    rcases stepOk_dry hdry st a with ⟨h1, h2⟩
    rcases ih (stepOk cfg st a) with ⟨h3, h4⟩
    exact ⟨h3.trans h1, h4.trans h2⟩

theorem stepOk_fs_point {cfg : Cfg} (st : SyncState) (e : WalkEntry) (q : String)
    (hgood : GoodEntry e)
    (hnf : passes cfg e.2.1 = true → e.1 = "file" → dstOf cfg e.2.1 ≠ q)
    (hnd : passes cfg e.2.1 = true → e.1 = "dir" →
      q ∉ ancestors ((dstOf cfg e.2.1).length + 1) (dstOf cfg e.2.1)) :
    (stepOk cfg st e).fs q = st.fs q := by
  unfold stepOk
  by_cases hp : passes cfg e.2.1 = false
  · rw [if_pos hp]
  · have hp2 : passes cfg e.2.1 = true := by
      revert hp
      cases passes cfg e.2.1 <;> simp
    rw [if_neg hp]
    by_cases hd : e.1 = "dir"
    · rw [if_pos hd]
      show makedirs_dst cfg.remote cfg.dry cfg.mkStat st.fs (dstOf cfg e.2.1) q = st.fs q
      exact makedirs_outside (hnd hp2 hd)
    · rw [if_neg hd]
      have hf : e.1 = "file" := by
        rcases hgood with h1 | ⟨h1, _⟩
        · exact absurd h1 hd
        · exact h1
      cases e.2.2 with
      | none => rfl
      | some s =>
        dsimp only
        split
        · rfl
        · split
          · rfl
          · show save st.fs (dstOf cfg e.2.1) s q = st.fs q
            unfold save fsInsert
            rw [if_neg (fun h => hnf hp2 hf h.symm)]

theorem fold_point_preserve {cfg : Cfg} :
    ∀ (entries : List WalkEntry) (st : SyncState) (q : String),
      (∀ e ∈ entries, GoodEntry e) →
      q ∉ fileDsts cfg entries →
      (∀ e ∈ entries, passes cfg e.2.1 = true → e.1 = "dir" →
        q ∉ ancestors ((dstOf cfg e.2.1).length + 1) (dstOf cfg e.2.1)) →
      (entries.foldl (stepOk cfg) st).fs q = st.fs q := by
  intro entries
  induction entries with
  | nil =>
    intro st q _ _ _
    rfl
  | cons a l ih =>
    intro st q hg hq hnd
    rw [List.foldl_cons]
    have hq2 : q ∉ fileDsts cfg l := by
      intro h2
      apply hq
      rw [fileDsts_cons]
      exact List.mem_append.mpr (Or.inr h2)
    have h3 := ih (stepOk cfg st a) q
      (fun e he => hg e (List.mem_cons_of_mem a he)) hq2
      (fun e he => hnd e (List.mem_cons_of_mem a he))
    rw [h3]
    refine stepOk_fs_point st a q (hg a (List.mem_cons_self a l)) ?_
      (hnd a (List.mem_cons_self a l))
    intro hp hf h4
    apply hq
    rw [fileDsts_cons]
    refine List.mem_append.mpr (Or.inl ?_)
    rw [if_pos (by simp [hp, hf])]
    rw [h4]
    exact List.mem_singleton.mpr rfl

theorem get?_some_eq {d : DstList} {k : String} {l : List String}
    (h : DstList.get? d k = some l) : l = d.getL k := by
  unfold DstList.get? at h
  unfold DstList.getL
  by_cases h1 : k = "file"
  · rw [if_pos h1] at h ⊢
    injection h with h3
    exact h3.symm
  · rw [if_neg h1] at h ⊢
    by_cases h2 : k = "dir"
    · rw [if_pos h2] at h ⊢
      injection h with h3
      exact h3.symm
    · rw [if_neg h2] at h
      exact absurd h (by simp)

theorem deleteStep_fs_point {ok : String → String → Bool} {dry : Bool} {files : DstList}
    {st st1 : DelState} {e : WalkEntry} {q : String}
    (h : deleteStep ok dry files st e = .ok st1) (hq : e.2.1 ≠ q) :
    st1.fs q = st.fs q := by
  unfold deleteStep at h
  split at h
  · exact absurd h (by simp)
  · split at h
    · injection h with h2
      rw [← h2]
    · split at h
      · injection h with h2
        rw [← h2]
      · split at h
        · injection h with h2
          rw [← h2]
          show fsRemove st.fs e.2.1 q = st.fs q
          unfold fsRemove
          rw [if_neg (fun h3 => hq h3.symm)]
        · injection h with h2
          rw [← h2]

theorem deleteStep_mem {ok : String → String → Bool} {dry : Bool} {files : DstList}
    {st st1 : DelState} {e : WalkEntry}
    (h : deleteStep ok dry files st e = .ok st1) (hc : e.2.1 ∈ files.getL e.1) :
    st1 = st := by
  unfold deleteStep at h
  split at h
  · exact absurd h (by simp)
  · next l hl =>
    rw [get?_some_eq hl] at h
    rw [if_pos (by simpa using hc)] at h
    injection h with h2
    exact h2.symm

theorem delete_fold_point {ok : String → String → Bool} {dry : Bool} {files : DstList}
    {q : String} :
    ∀ (walk : List WalkEntry) (st0 d : DelState),
      List.foldlM (deleteStep ok dry files) st0 walk = .ok d →
      (∀ e ∈ walk, e.2.1 = q → e.2.1 ∈ files.getL e.1) →
      d.fs q = st0.fs q := by
  intro walk
  induction walk with
  | nil =>
    intro st0 d h _
    have h2 : st0 = d := by
      have h3 : (Except.ok st0 : Except PyErr DelState) = .ok d := h
      injection h3
    rw [h2]
  | cons a l ih =>
    intro st0 d h hq
    rw [show List.foldlM (deleteStep ok dry files) st0 (a :: l) =
        (deleteStep ok dry files st0 a).bind
          (fun s => List.foldlM (deleteStep ok dry files) s l) from rfl] at h
    cases hs : deleteStep ok dry files st0 a with
    | error err =>
      rw [hs] at h
      exact absurd h (by simp [Except.bind])
    | ok st1 =>
      rw [hs] at h
      have hrest := ih st1 d h (fun e he => hq e (List.mem_cons_of_mem a he))
      by_cases hqa : a.2.1 = q
      · rw [deleteStep_mem hs (hq a (List.mem_cons_self a l) hqa)] at hrest
        exact hrest
      · rw [hrest]
        exact deleteStep_fs_point hs hqa
  
theorem deleteStep_ok_of_good {ok : String → String → Bool} {dry : Bool} {files : DstList}
    (st : DelState) (e : WalkEntry) (h : e.1 = "file" ∨ e.1 = "dir") :
    ∃ st1, deleteStep ok dry files st e = .ok st1 := by
  unfold deleteStep
  rw [get?_of_good h]
  dsimp only
  split
  · exact ⟨st, rfl⟩
  · split
    · exact ⟨_, rfl⟩
    · split
      · exact ⟨_, rfl⟩
      · exact ⟨_, rfl⟩

theorem delete_fold_ok {ok : String → String → Bool} {dry : Bool} {files : DstList} :
    ∀ (walk : List WalkEntry) (st0 : DelState),
      (∀ e ∈ walk, e.1 = "file" ∨ e.1 = "dir") →
      ∃ d, List.foldlM (deleteStep ok dry files) st0 walk = .ok d := by
  intro walk
  induction walk with
  | nil =>
    intro st0 _
    exact ⟨st0, rfl⟩
  | cons a l ih =>
    intro st0 hk
    rcases deleteStep_ok_of_good st0 a (hk a (List.mem_cons_self a l)) with ⟨st1, hs⟩
    rcases ih st1 (fun e he => hk e (List.mem_cons_of_mem a he)) with ⟨d, hd⟩
    refine ⟨d, ?_⟩
    rw [show List.foldlM (deleteStep ok dry files) st0 (a :: l) =
        (deleteStep ok dry files st0 a).bind
          (fun s => List.foldlM (deleteStep ok dry files) s l) from rfl, hs]
    exact hd

theorem deleteStep_dry {ok : String → String → Bool} {files : DstList}
    {st st1 : DelState} {e : WalkEntry}
    (h : deleteStep ok true files st e = .ok st1) :
    st1.fs = st.fs ∧ st1.removed = st.removed := by
  unfold deleteStep at h
  split at h
  · exact absurd h (by simp)
  · split at h
    · injection h with h2
      rw [← h2]
      exact ⟨rfl, rfl⟩
    · rw [if_pos rfl] at h
      injection h with h2
      rw [← h2]
      exact ⟨rfl, rfl⟩

theorem delete_fold_dry_props {ok : String → String → Bool} {files : DstList} :
    ∀ (walk : List WalkEntry) (st0 d : DelState),
      List.foldlM (deleteStep ok true files) st0 walk = .ok d →
      d.fs = st0.fs ∧ d.removed = st0.removed := by
  intro walk
  induction walk with
  | nil =>
    intro st0 d h
    have h2 : st0 = d := by
      have h3 : (Except.ok st0 : Except PyErr DelState) = .ok d := h
      injection h3
    rw [← h2]
    exact ⟨rfl, rfl⟩
  | cons a l ih =>
    intro st0 d h
    rw [show List.foldlM (deleteStep ok true files) st0 (a :: l) =
        (deleteStep ok true files st0 a).bind
          (fun s => List.foldlM (deleteStep ok true files) s l) from rfl] at h
    cases hs : deleteStep ok true files st0 a with
    | error err =>
      rw [hs] at h
      exact absurd h (by simp [Except.bind])
    | ok st1 =>
      rw [hs] at h
      rcases ih st1 d h with ⟨h3, h4⟩
      rcases deleteStep_dry hs with ⟨h5, h6⟩
      exact ⟨h3.trans h5, h4.trans h6⟩

theorem stepOk_skip {cfg : Cfg} {st : SyncState} {e : WalkEntry}
    (hp : passes cfg e.2.1 = false) : stepOk cfg st e = st := by
  unfold stepOk
  rw [if_pos hp]

theorem stepOk_dir {cfg : Cfg} {st : SyncState} {e : WalkEntry}
    (hp : passes cfg e.2.1 = true) (hd : e.1 = "dir") :
    stepOk cfg st e =
      { fs := makedirs_dst cfg.remote cfg.dry cfg.mkStat st.fs (dstOf cfg e.2.1),
        total := st.total, copies := st.copies,
        dst_list := st.dst_list.push e.1 (dstOf cfg e.2.1) } := by
  unfold stepOk
  rw [if_neg (by rw [hp]; simp), if_pos hd]

theorem stepOk_file_valid {cfg : Cfg} {st : SyncState} {e : WalkEntry} {s : PStat}
    (hp : passes cfg e.2.1 = true) (hf : e.1 = "file") (hsa : e.2.2 = some s)
    (hv : validate_dst (Option.map Entry.stat (st.fs (dstOf cfg e.2.1))) s = true) :
    stepOk cfg st e = { st with dst_list := st.dst_list.push e.1 (dstOf cfg e.2.1) } := by
  unfold stepOk
  rw [if_neg (by rw [hp]; simp), if_neg (show ¬ e.1 = "dir" by rw [hf]; decide), hsa]
  dsimp only
  rw [if_pos hv]

theorem stepOk_file_copy {cfg : Cfg} {st : SyncState} {e : WalkEntry} {s : PStat}
    (hdry : cfg.dry = false)
    (hp : passes cfg e.2.1 = true) (hf : e.1 = "file") (hsa : e.2.2 = some s)
    (hv : ¬ validate_dst (Option.map Entry.stat (st.fs (dstOf cfg e.2.1))) s = true) :
    stepOk cfg st e =
      { fs := save st.fs (dstOf cfg e.2.1) s, total := st.total + s.st_size,
        copies := st.copies + 1,
        dst_list := st.dst_list.push e.1 (dstOf cfg e.2.1) } := by
  unfold stepOk
  rw [if_neg (by rw [hp]; simp), if_neg (show ¬ e.1 = "dir" by rw [hf]; decide), hsa]
  dsimp only
  rw [if_neg hv, hdry]
  simp

theorem run1core {cfg : Cfg} (hdry : cfg.dry = false) :
    ∀ (entries : List WalkEntry) (st : SyncState),
      (∀ e ∈ entries, GoodEntry e) →
      (fileDsts cfg entries).Nodup →
      (∀ q ∈ fileDsts cfg entries, ∀ e ∈ entries, passes cfg e.2.1 = true → e.1 = "dir" →
        q ∉ ancestors ((dstOf cfg e.2.1).length + 1) (dstOf cfg e.2.1)) →
      ∀ e ∈ entries, passes cfg e.2.1 = true → e.1 = "file" → ∀ s, e.2.2 = some s →
      ∃ en, (entries.foldl (stepOk cfg) st).fs (dstOf cfg e.2.1) = some en ∧
        validate_dst (some en.stat) s = true ∧
        ((∀ en0, st.fs (dstOf cfg e.2.1) = some en0 → en0.kindStr = "file") →
          en.kindStr = "file") := by
  intro entries
  induction entries with
  | nil =>
    intro st _ _ _ e he
    simp at he
  | cons a l ih =>
    intro st hg hnodup hsep e he hp hf s hsa
    have hgl : ∀ e2 ∈ l, GoodEntry e2 := fun e2 h2 => hg e2 (List.mem_cons_of_mem a h2)
    have hndl : (fileDsts cfg l).Nodup := by
      rw [fileDsts_cons] at hnodup
      exact hnodup.of_append_right
    have hsepl : ∀ q ∈ fileDsts cfg l, ∀ e2 ∈ l, passes cfg e2.2.1 = true → e2.1 = "dir" →
        q ∉ ancestors ((dstOf cfg e2.2.1).length + 1) (dstOf cfg e2.2.1) := by
      intro q hq e2 h2 h3 h4
      refine hsep q ?_ e2 (List.mem_cons_of_mem a h2) h3 h4
      rw [fileDsts_cons]
      exact List.mem_append.mpr (Or.inr hq)
    rw [List.foldl_cons]
    rcases List.mem_cons.mp he with rfl | he2
    · -- the entry in question is the head
      have hmemd : dstOf cfg e.2.1 ∈ fileDsts cfg (e :: l) :=
        mem_fileDsts (List.mem_cons_self e l) hp hf
      have hnin : dstOf cfg e.2.1 ∉ fileDsts cfg l := by
        rw [fileDsts_cons, if_pos (by simp [hp, hf])] at hnodup
        exact (List.nodup_cons.mp hnodup).1
      have hpres : ∀ st2 : SyncState,
          (l.foldl (stepOk cfg) st2).fs (dstOf cfg e.2.1) = st2.fs (dstOf cfg e.2.1) := by
        intro st2
        refine fold_point_preserve l st2 (dstOf cfg e.2.1) hgl hnin ?_
        intro e2 h2 h3 h4
        exact hsep (dstOf cfg e.2.1) hmemd e2 (List.mem_cons_of_mem e h2) h3 h4
      by_cases hv : validate_dst (Option.map Entry.stat (st.fs (dstOf cfg e.2.1))) s = true
      · rw [stepOk_file_valid hp hf hsa hv]
        cases hfs : st.fs (dstOf cfg e.2.1) with
        | none =>
          rw [hfs] at hv
          simp [validate_dst] at hv
        | some en0 =>
          refine ⟨en0, ?_, ?_, fun h0 => h0 en0 rfl⟩
          · rw [hpres]
            exact hfs
          · rw [hfs] at hv
            simpa using hv
      · rw [stepOk_file_copy hdry hp hf hsa hv]
        refine ⟨.file { st_size := s.st_size, st_mtime := s.st_mtime, st_atime := s.st_atime },
          ?_, ?_, fun _ => rfl⟩
        · rw [hpres]
          show save st.fs (dstOf cfg e.2.1) s (dstOf cfg e.2.1) = _
          unfold save fsInsert
          rw [if_pos rfl]
        · exact validate_self s
    · -- the entry in question is in the tail
      have hres := ih (stepOk cfg st a) hgl hndl hsepl e he2 hp hf s hsa
      rcases hres with ⟨en, h1, h2, h3⟩
      refine ⟨en, h1, h2, fun h0 => h3 ?_⟩
      intro en0 hfs0
      refine h0 en0 ?_
      rw [← hfs0]
      symm
      refine stepOk_fs_point st a (dstOf cfg e.2.1) (hg a (List.mem_cons_self a l)) ?_ ?_
      · intro hpa hfa heq
        have hda : dstOf cfg a.2.1 ∉ fileDsts cfg l := by
          rw [fileDsts_cons, if_pos (by simp [hpa, hfa])] at hnodup
          exact (List.nodup_cons.mp hnodup).1
        exact hda (heq ▸ mem_fileDsts he2 hp hf)
      · intro hpa hda
        refine hsep (dstOf cfg e.2.1) ?_ a (List.mem_cons_self a l) hpa hda
        rw [fileDsts_cons]
        exact List.mem_append.mpr (Or.inr (mem_fileDsts he2 hp hf))

theorem run2core {cfg : Cfg} :
    ∀ (entries : List WalkEntry) (st : SyncState),
      (∀ e ∈ entries, GoodEntry e) →
      (∀ q ∈ fileDsts cfg entries, ∀ e ∈ entries, passes cfg e.2.1 = true → e.1 = "dir" →
        q ∉ ancestors ((dstOf cfg e.2.1).length + 1) (dstOf cfg e.2.1)) →
      (∀ e ∈ entries, passes cfg e.2.1 = true → e.1 = "file" → ∀ s, e.2.2 = some s →
        validate_dst (Option.map Entry.stat (st.fs (dstOf cfg e.2.1))) s = true) →
      (entries.foldl (stepOk cfg) st).total = st.total ∧
      (entries.foldl (stepOk cfg) st).copies = st.copies := by
  intro entries
  induction entries with
  | nil =>
    intro st _ _ _
    exact ⟨rfl, rfl⟩
  | cons a l ih =>
    intro st hg hsep hval
    have hgl : ∀ e2 ∈ l, GoodEntry e2 := fun e2 h2 => hg e2 (List.mem_cons_of_mem a h2)
    have hsepl : ∀ q ∈ fileDsts cfg l, ∀ e2 ∈ l, passes cfg e2.2.1 = true → e2.1 = "dir" →
        q ∉ ancestors ((dstOf cfg e2.2.1).length + 1) (dstOf cfg e2.2.1) := by
      intro q hq e2 h2 h3 h4
      refine hsep q ?_ e2 (List.mem_cons_of_mem a h2) h3 h4
      rw [fileDsts_cons]
      exact List.mem_append.mpr (Or.inr hq)
    rw [List.foldl_cons]
    have hstep : (stepOk cfg st a).fs = st.fs ∨
        (passes cfg a.2.1 = true ∧ a.1 = "dir" ∧
          (stepOk cfg st a).fs =
            makedirs_dst cfg.remote cfg.dry cfg.mkStat st.fs (dstOf cfg a.2.1)) := by
      by_cases hp : passes cfg a.2.1 = false
      · rw [stepOk_skip hp]
        exact Or.inl rfl
      · have hp2 : passes cfg a.2.1 = true := by
          revert hp
          cases passes cfg a.2.1 <;> simp
        rcases hg a (List.mem_cons_self a l) with hd | ⟨hf, hs⟩
        · rw [stepOk_dir hp2 hd]
          exact Or.inr ⟨hp2, hd, rfl⟩
        · cases hsa : a.2.2 with
          | none => exact absurd hsa hs
          | some s =>
            have hv := hval a (List.mem_cons_self a l) hp2 hf s hsa
            rw [stepOk_file_valid hp2 hf hsa hv]
            exact Or.inl rfl
    have htc : (stepOk cfg st a).total = st.total ∧ (stepOk cfg st a).copies = st.copies := by
      by_cases hp : passes cfg a.2.1 = false
      · rw [stepOk_skip hp]
        exact ⟨rfl, rfl⟩
      · have hp2 : passes cfg a.2.1 = true := by
          revert hp
          cases passes cfg a.2.1 <;> simp
        rcases hg a (List.mem_cons_self a l) with hd | ⟨hf, hs⟩
        · rw [stepOk_dir hp2 hd]
          exact ⟨rfl, rfl⟩
        · cases hsa : a.2.2 with
          | none => exact absurd hsa hs
          | some s =>
            have hv := hval a (List.mem_cons_self a l) hp2 hf s hsa
            rw [stepOk_file_valid hp2 hf hsa hv]
            exact ⟨rfl, rfl⟩
    have hvall : ∀ e2 ∈ l, passes cfg e2.2.1 = true → e2.1 = "file" → ∀ s, e2.2.2 = some s →
        validate_dst (Option.map Entry.stat
          ((stepOk cfg st a).fs (dstOf cfg e2.2.1))) s = true := by
      intro e2 h2 h3 h4 s h5
      have hpt : (stepOk cfg st a).fs (dstOf cfg e2.2.1) = st.fs (dstOf cfg e2.2.1) := by
        rcases hstep with h6 | ⟨hpa, hda, h6⟩
        · rw [h6]
        · rw [h6]
          refine makedirs_outside ?_
          refine hsep (dstOf cfg e2.2.1) ?_ a (List.mem_cons_self a l) hpa hda
          rw [fileDsts_cons]
          exact List.mem_append.mpr (Or.inr (mem_fileDsts h2 h3 h4))
      rw [hpt]
      exact hval e2 (List.mem_cons_of_mem a h2) h3 h4 s h5
    rcases ih (stepOk cfg st a) hgl hsepl hvall with ⟨h7, h8⟩
    exact ⟨h7.trans htc.1, h8.trans htc.2⟩

theorem ok_bind {α β : Type} (a : α) (f : α → Except PyErr β) :
    (Except.ok a).bind f = f a := rfl

theorem sync_once_eq (cfg : Cfg) (entries : List WalkEntry) (fs0 : FS) (del : Bool)
    (dstWalk : FS → List WalkEntry) (ok : String → String → Bool) :
    sync_once cfg entries fs0 del dstWalk ok =
      (sync_entries cfg entries
        { fs := makedirs_dst cfg.remote cfg.dry cfg.mkStat fs0 cfg.dstRoot,
          total := 0, copies := 0, dst_list := ⟨[], []⟩ }).bind
        (fun st => if del then
            (delete_dst (dstWalk st.fs) st.dst_list cfg.dry ok st.fs).map
              (fun d => ({ st with fs := d.fs }, d.removed))
          else .ok (st, [])) := rfl

/-- C4 (amended): on a real (non-dry) run over walker-produced entries whose
passing files have pairwise distinct destinations lying neither on the
created-directory chains nor, when deletion is enabled, under a destination
entry of directory kind, and with destination walk listings consistent with
the destination state, running sync twice with identical arguments performs
zero copies on the second run with a zero accumulated byte count. -/
theorem claim_C4 (cfg : Cfg) (entries : List WalkEntry) (fs0 : FS) (del : Bool)
    (dstWalk : FS → List WalkEntry) (okRemove : String → String → Bool)
    (hdry : cfg.dry = false)
    (hg : ∀ e ∈ entries, GoodEntry e)
    (hnodup : (fileDsts cfg entries).Nodup)
    (hseproot : ∀ q ∈ fileDsts cfg entries,
      q ∉ ancestors (cfg.dstRoot.length + 1) cfg.dstRoot)
    (hsep : ∀ q ∈ fileDsts cfg entries, ∀ e ∈ entries,
      passes cfg e.2.1 = true → e.1 = "dir" →
      q ∉ ancestors ((dstOf cfg e.2.1).length + 1) (dstOf cfg e.2.1))
    (hwalk : ∀ fs : FS, ∀ e ∈ dstWalk fs, ∃ en, fs e.2.1 = some en ∧ en.kindStr = e.1)
    (hinit : del = true → ∀ q ∈ fileDsts cfg entries, ∀ en, fs0 q = some en →
      en.kindStr = "file") :
    ∃ r1 r2, sync_once cfg entries fs0 del dstWalk okRemove = .ok r1 ∧
      sync_once cfg entries r1.1.fs del dstWalk okRemove = .ok r2 ∧
      r2.1.copies = 0 ∧ r2.1.total = 0 := by
  have h1 := sync_entries_ok cfg entries
    { fs := makedirs_dst cfg.remote cfg.dry cfg.mkStat fs0 cfg.dstRoot,
      total := 0, copies := 0, dst_list := ⟨[], []⟩ } hg
  have hpost : ∀ e ∈ entries, passes cfg e.2.1 = true → e.1 = "file" →
      ∀ s, e.2.2 = some s →
      ∃ en, (entries.foldl (stepOk cfg)
          { fs := makedirs_dst cfg.remote cfg.dry cfg.mkStat fs0 cfg.dstRoot,
            total := 0, copies := 0, dst_list := ⟨[], []⟩ }).fs (dstOf cfg e.2.1) = some en ∧
        validate_dst (some en.stat) s = true ∧
        (del = true → en.kindStr = "file") := by
    intro e he hp hf s hsa
    rcases run1core hdry entries
      { fs := makedirs_dst cfg.remote cfg.dry cfg.mkStat fs0 cfg.dstRoot,
        total := 0, copies := 0, dst_list := ⟨[], []⟩ } hg hnodup hsep e he hp hf s hsa
      with ⟨en, h2, h3, h4⟩
    refine ⟨en, h2, h3, fun hd => h4 ?_⟩
    intro en0 h5
    refine hinit hd _ (mem_fileDsts he hp hf) en0 ?_
    rw [← h5]
    exact (makedirs_outside (hseproot _ (mem_fileDsts he hp hf))).symm
  -- r1fs is the first run's final destination state; characterize it below
  have hrun : ∀ fsX : FS,
      (∀ e ∈ entries, passes cfg e.2.1 = true → e.1 = "file" → ∀ s, e.2.2 = some s →
        ∃ en, fsX (dstOf cfg e.2.1) = some en ∧ validate_dst (some en.stat) s = true) →
      ∃ r2, sync_once cfg entries fsX del dstWalk okRemove = .ok r2 ∧
        r2.1.copies = 0 ∧ r2.1.total = 0 := by
    intro fsX hvalX
    have h2 := sync_entries_ok cfg entries
      { fs := makedirs_dst cfg.remote cfg.dry cfg.mkStat fsX cfg.dstRoot,
        total := 0, copies := 0, dst_list := ⟨[], []⟩ } hg
    have hval2 : ∀ e ∈ entries, passes cfg e.2.1 = true → e.1 = "file" →
        ∀ s, e.2.2 = some s →
        validate_dst (Option.map Entry.stat
          ((makedirs_dst cfg.remote cfg.dry cfg.mkStat fsX cfg.dstRoot)
            (dstOf cfg e.2.1))) s = true := by
      intro e he hp hf s hsa
      rcases hvalX e he hp hf s hsa with ⟨en, h3, h4⟩
      rw [makedirs_outside (hseproot _ (mem_fileDsts he hp hf)), h3]
      simpa using h4
    rcases run2core entries
      { fs := makedirs_dst cfg.remote cfg.dry cfg.mkStat fsX cfg.dstRoot,
        total := 0, copies := 0, dst_list := ⟨[], []⟩ } hg hsep (by
          intro e he hp hf s hsa
          exact hval2 e he hp hf s hsa) with ⟨htot, hcop⟩
    cases del with
    | false =>
      refine ⟨(entries.foldl (stepOk cfg)
        { fs := makedirs_dst cfg.remote cfg.dry cfg.mkStat fsX cfg.dstRoot,
          total := 0, copies := 0, dst_list := ⟨[], []⟩ }, []), ?_, hcop, htot⟩
      rw [sync_once_eq, h2]
      rfl
    | true =>
      have hwkinds : ∀ e ∈ dstWalk (entries.foldl (stepOk cfg)
          { fs := makedirs_dst cfg.remote cfg.dry cfg.mkStat fsX cfg.dstRoot,
            total := 0, copies := 0, dst_list := ⟨[], []⟩ }).fs,
          e.1 = "file" ∨ e.1 = "dir" := by
        intro e he
        rcases hwalk _ e he with ⟨en, _, hk⟩
        rw [← hk]
        exact kindStr_good en
      rcases delete_fold_ok (dstWalk (entries.foldl (stepOk cfg)
          { fs := makedirs_dst cfg.remote cfg.dry cfg.mkStat fsX cfg.dstRoot,
            total := 0, copies := 0, dst_list := ⟨[], []⟩ }).fs)
          { fs := (entries.foldl (stepOk cfg)
              { fs := makedirs_dst cfg.remote cfg.dry cfg.mkStat fsX cfg.dstRoot,
                total := 0, copies := 0, dst_list := ⟨[], []⟩ }).fs,
            attempted := [], removed := [] } hwkinds with ⟨d2, hd2⟩
      have hd2x : delete_dst (dstWalk (entries.foldl (stepOk cfg)
          { fs := makedirs_dst cfg.remote cfg.dry cfg.mkStat fsX cfg.dstRoot,
            total := 0, copies := 0, dst_list := ⟨[], []⟩ }).fs)
          (entries.foldl (stepOk cfg)
            { fs := makedirs_dst cfg.remote cfg.dry cfg.mkStat fsX cfg.dstRoot,
              total := 0, copies := 0, dst_list := ⟨[], []⟩ }).dst_list
          cfg.dry okRemove
          (entries.foldl (stepOk cfg)
            { fs := makedirs_dst cfg.remote cfg.dry cfg.mkStat fsX cfg.dstRoot,
              total := 0, copies := 0, dst_list := ⟨[], []⟩ }).fs = .ok d2 := hd2
      refine ⟨({ entries.foldl (stepOk cfg)
          { fs := makedirs_dst cfg.remote cfg.dry cfg.mkStat fsX cfg.dstRoot,
            total := 0, copies := 0, dst_list := ⟨[], []⟩ } with fs := d2.fs }, d2.removed),
        ?_, hcop, htot⟩
      rw [sync_once_eq, h2, ok_bind]
      rw [if_pos rfl, hd2x]
      rfl
  cases del with
  | false =>
    have hr1 : sync_once cfg entries fs0 false dstWalk okRemove = .ok
        (entries.foldl (stepOk cfg)
          { fs := makedirs_dst cfg.remote cfg.dry cfg.mkStat fs0 cfg.dstRoot,
            total := 0, copies := 0, dst_list := ⟨[], []⟩ }, []) := by
      rw [sync_once_eq, h1]
      rfl
    rcases hrun (entries.foldl (stepOk cfg)
        { fs := makedirs_dst cfg.remote cfg.dry cfg.mkStat fs0 cfg.dstRoot,
          total := 0, copies := 0, dst_list := ⟨[], []⟩ }).fs
      (fun e he hp hf s hsa => by
        rcases hpost e he hp hf s hsa with ⟨en, h3, h4, _⟩
        exact ⟨en, h3, h4⟩) with ⟨r2, hr2, hc2, ht2⟩
    exact ⟨_, r2, hr1, hr2, hc2, ht2⟩
  | true =>
    have hwk1 : ∀ e ∈ dstWalk (entries.foldl (stepOk cfg)
        { fs := makedirs_dst cfg.remote cfg.dry cfg.mkStat fs0 cfg.dstRoot,
          total := 0, copies := 0, dst_list := ⟨[], []⟩ }).fs,
        e.1 = "file" ∨ e.1 = "dir" := by
      intro e he
      rcases hwalk _ e he with ⟨en, _, hk⟩
      rw [← hk]
      exact kindStr_good en
    rcases delete_fold_ok (dstWalk (entries.foldl (stepOk cfg)
        { fs := makedirs_dst cfg.remote cfg.dry cfg.mkStat fs0 cfg.dstRoot,
          total := 0, copies := 0, dst_list := ⟨[], []⟩ }).fs)
        { fs := (entries.foldl (stepOk cfg)
            { fs := makedirs_dst cfg.remote cfg.dry cfg.mkStat fs0 cfg.dstRoot,
              total := 0, copies := 0, dst_list := ⟨[], []⟩ }).fs,
          attempted := [], removed := [] } hwk1 with ⟨d1, hd1⟩
    have hd1x : delete_dst (dstWalk (entries.foldl (stepOk cfg)
        { fs := makedirs_dst cfg.remote cfg.dry cfg.mkStat fs0 cfg.dstRoot,
          total := 0, copies := 0, dst_list := ⟨[], []⟩ }).fs)
        (entries.foldl (stepOk cfg)
          { fs := makedirs_dst cfg.remote cfg.dry cfg.mkStat fs0 cfg.dstRoot,
            total := 0, copies := 0, dst_list := ⟨[], []⟩ }).dst_list
        cfg.dry okRemove
        (entries.foldl (stepOk cfg)
          { fs := makedirs_dst cfg.remote cfg.dry cfg.mkStat fs0 cfg.dstRoot,
            total := 0, copies := 0, dst_list := ⟨[], []⟩ }).fs = .ok d1 := hd1
    have hr1 : sync_once cfg entries fs0 true dstWalk okRemove = .ok
        ({ entries.foldl (stepOk cfg)
            { fs := makedirs_dst cfg.remote cfg.dry cfg.mkStat fs0 cfg.dstRoot,
              total := 0, copies := 0, dst_list := ⟨[], []⟩ } with fs := d1.fs },
          d1.removed) := by
      rw [sync_once_eq, h1, ok_bind]
      rw [if_pos rfl, hd1x]
      rfl
    have hpres : ∀ e ∈ entries, passes cfg e.2.1 = true → e.1 = "file" →
        ∀ s, e.2.2 = some s →
        d1.fs (dstOf cfg e.2.1) = (entries.foldl (stepOk cfg)
          { fs := makedirs_dst cfg.remote cfg.dry cfg.mkStat fs0 cfg.dstRoot,
            total := 0, copies := 0, dst_list := ⟨[], []⟩ }).fs (dstOf cfg e.2.1) := by
      intro e he hp hf s hsa
      rcases hpost e he hp hf s hsa with ⟨en, h3, h4, h5⟩
      refine delete_fold_point _ _ _ hd1 ?_
      intro w hw heq
      rcases hwalk _ w hw with ⟨en2, hen2, hk2⟩
      rw [heq, h3] at hen2
      injection hen2 with hen3
      have hw1 : w.1 = "file" := by
        rw [← hk2, ← hen3]
        exact h5 rfl
      rw [heq, hw1]
      show dstOf cfg e.2.1 ∈ DstList.getL _ "file"
      unfold DstList.getL
      rw [if_pos rfl]
      rw [(foldl_manifest cfg entries _).1]
      exact List.mem_append.mpr (Or.inr (mem_fileDsts he hp hf))
    rcases hrun d1.fs (fun e he hp hf s hsa => by
      rcases hpost e he hp hf s hsa with ⟨en, h3, h4, _⟩
      exact ⟨en, by rw [hpres e he hp hf s hsa]; exact h3, h4⟩) with ⟨r2, hr2, hc2, ht2⟩
    exact ⟨_, r2, hr1, hr2, hc2, ht2⟩

/-- Counterexample for C4 as stated, in two reachable families.  First,
dry requests are sync requests too: with dry mode the first run mutates
nothing, so the second run accumulates the same 100 bytes instead of 0.
Second, even on a real run with deletion enabled: a destination directory
whose stat matches the source file passes the change detector (which never
inspects the entry kind), is recorded in the manifest's file set yet walked
as a directory by the deletion pass, which removes it as extraneous; the
second run then re-copies the file, performing one copy and totalling 5
bytes instead of 0. -/
theorem claim_C4_cex :
    (∃ r1 r2,
      sync_once
        { includes := [], excludes := [], srcRoot := "/a", dstRoot := "/b",
          remote := true, dry := true, mkStat := fun _ => ⟨0, 0, 0⟩ }
        [("file", "/a/x", some ⟨100, 0, 0⟩)] (fun _ => none) false
        (fun _ => []) (fun _ _ => true) = .ok r1 ∧
      sync_once
        { includes := [], excludes := [], srcRoot := "/a", dstRoot := "/b",
          remote := true, dry := true, mkStat := fun _ => ⟨0, 0, 0⟩ }
        [("file", "/a/x", some ⟨100, 0, 0⟩)] r1.1.fs false
        (fun _ => []) (fun _ _ => true) = .ok r2 ∧
      r2.1.total = 100 ∧ ¬ r2.1.total = 0) ∧
    (∃ r1 r2,
      sync_once
        { includes := [], excludes := [], srcRoot := "/a", dstRoot := "/b",
          remote := true, dry := false, mkStat := fun _ => ⟨0, 0, 0⟩ }
        [("file", "/a/x", some ⟨5, 10, 20⟩)]
        (fun p => if p = "/b/x" then some (.dir ⟨5, 10, 0⟩)
          else if p = "/b" then some (.dir ⟨0, 0, 0⟩) else none) true
        (fun fs => match fs "/b/x" with
          | some (.dir _) => [("dir", "/b/x", none)]
          | some (.file st) => [("file", "/b/x", some st)]
          | none => [])
        (fun _ _ => true) = .ok r1 ∧
      r1.1.total = 0 ∧ r1.1.copies = 0 ∧ r1.2 = [("dir", "/b/x")] ∧
      sync_once
        { includes := [], excludes := [], srcRoot := "/a", dstRoot := "/b",
          remote := true, dry := false, mkStat := fun _ => ⟨0, 0, 0⟩ }
        [("file", "/a/x", some ⟨5, 10, 20⟩)] r1.1.fs true
        (fun fs => match fs "/b/x" with
          | some (.dir _) => [("dir", "/b/x", none)]
          | some (.file st) => [("file", "/b/x", some st)]
          | none => [])
        (fun _ _ => true) = .ok r2 ∧
      r2.1.copies = 1 ∧ r2.1.total = 5 ∧ ¬ r2.1.total = 0) := by
  constructor
  · exact ⟨_, _, rfl, rfl, rfl, by decide⟩
  · exact ⟨_, _, rfl, rfl, rfl, rfl, rfl, rfl, rfl, by decide⟩

/-- Witness for the amended C4 on a concrete one-file sync with deletion
enabled: the second run copies nothing and totals zero bytes. -/
theorem claim_C4_wit :
    ∃ r1 r2,
      sync_once
        { includes := [], excludes := [], srcRoot := "/a", dstRoot := "/b",
          remote := true, dry := false, mkStat := fun _ => ⟨0, 0, 0⟩ }
        [("file", "/a/x", some ⟨5, 10, 20⟩)] (fun _ => none) true
        (fun _ => []) (fun _ _ => true) = .ok r1 ∧
      sync_once
        { includes := [], excludes := [], srcRoot := "/a", dstRoot := "/b",
          remote := true, dry := false, mkStat := fun _ => ⟨0, 0, 0⟩ }
        [("file", "/a/x", some ⟨5, 10, 20⟩)] r1.1.fs true
        (fun _ => []) (fun _ _ => true) = .ok r2 ∧
      r2.1.copies = 0 ∧ r2.1.total = 0 :=
  claim_C4
    { includes := [], excludes := [], srcRoot := "/a", dstRoot := "/b",
      remote := true, dry := false, mkStat := fun _ => ⟨0, 0, 0⟩ }
    [("file", "/a/x", some ⟨5, 10, 20⟩)] (fun _ => none) true
    (fun _ => []) (fun _ _ => true)
    rfl
    (by
      intro e he
      rcases List.mem_singleton.mp he with rfl
      exact Or.inr ⟨rfl, by simp⟩)
    (by decide)
    (by decide)
    (by decide)
    (by
      intro fs e he
      exact absurd he (List.not_mem_nil e))
    (by
      intro _ q _ en h
      exact absurd h (by simp))

theorem stepOk_file_copy_dry {cfg : Cfg} {st : SyncState} {e : WalkEntry} {s : PStat}
    (hdry : cfg.dry = true)
    (hp : passes cfg e.2.1 = true) (hf : e.1 = "file") (hsa : e.2.2 = some s)
    (hv : ¬ validate_dst (Option.map Entry.stat (st.fs (dstOf cfg e.2.1))) s = true) :
    stepOk cfg st e =
      { fs := st.fs, total := st.total + s.st_size, copies := st.copies,
        dst_list := st.dst_list.push e.1 (dstOf cfg e.2.1) } := by
  unfold stepOk
  rw [if_neg (by rw [hp]; simp), if_neg (show ¬ e.1 = "dir" by rw [hf]; decide), hsa]
  dsimp only
  rw [if_neg hv, hdry]
  simp

theorem C6core {cfg : Cfg} :
    ∀ (entries : List WalkEntry) (stT stF : SyncState),
      (∀ e ∈ entries, GoodEntry e) →
      (fileDsts cfg entries).Nodup →
      (∀ q ∈ fileDsts cfg entries, ∀ e ∈ entries, passes cfg e.2.1 = true → e.1 = "dir" →
        q ∉ ancestors ((dstOf cfg e.2.1).length + 1) (dstOf cfg e.2.1)) →
      stT.total = stF.total →
      stT.dst_list = stF.dst_list →
      (∀ e ∈ entries, passes cfg e.2.1 = true → e.1 = "file" →
        stF.fs (dstOf cfg e.2.1) = stT.fs (dstOf cfg e.2.1)) →
      (entries.foldl (stepOk { cfg with dry := true }) stT).total =
        (entries.foldl (stepOk { cfg with dry := false }) stF).total ∧
      (entries.foldl (stepOk { cfg with dry := true }) stT).dst_list =
        (entries.foldl (stepOk { cfg with dry := false }) stF).dst_list := by
  intro entries
  induction entries with
  | nil =>
    intro stT stF _ _ _ htot hman _
    exact ⟨htot, hman⟩
  | cons a l ih =>
    intro stT stF hg hnodup hsep htot hman hinv
    have hgl : ∀ e2 ∈ l, GoodEntry e2 := fun e2 h2 => hg e2 (List.mem_cons_of_mem a h2)
    have hndl : (fileDsts cfg l).Nodup := by
      rw [fileDsts_cons] at hnodup
      exact hnodup.of_append_right
    have hsepl : ∀ q ∈ fileDsts cfg l, ∀ e2 ∈ l, passes cfg e2.2.1 = true → e2.1 = "dir" →
        q ∉ ancestors ((dstOf cfg e2.2.1).length + 1) (dstOf cfg e2.2.1) := by
      intro q hq e2 h2 h3 h4
      refine hsep q ?_ e2 (List.mem_cons_of_mem a h2) h3 h4
      rw [fileDsts_cons]
      exact List.mem_append.mpr (Or.inr hq)
    rw [List.foldl_cons, List.foldl_cons]
    by_cases hp : passes cfg a.2.1 = false
    · rw [show stepOk { cfg with dry := true } stT a = stT from stepOk_skip hp,
        show stepOk { cfg with dry := false } stF a = stF from stepOk_skip hp]
      exact ih stT stF hgl hndl hsepl htot hman
        (fun e2 h2 => hinv e2 (List.mem_cons_of_mem a h2))
    · have hp2 : passes cfg a.2.1 = true := by
        revert hp
        cases passes cfg a.2.1 <;> simp
      rcases hg a (List.mem_cons_self a l) with hd | ⟨hf, hs⟩
      · rw [show stepOk { cfg with dry := true } stT a = _ from stepOk_dir hp2 hd,
          show stepOk { cfg with dry := false } stF a = _ from stepOk_dir hp2 hd]
        refine ih _ _ hgl hndl hsepl htot
          (show stT.dst_list.push a.1 (dstOf cfg a.2.1) =
            stF.dst_list.push a.1 (dstOf cfg a.2.1) by rw [hman]) ?_
        intro e2 h2 h3 h4
        show makedirs_dst cfg.remote false cfg.mkStat stF.fs (dstOf cfg a.2.1)
            (dstOf cfg e2.2.1) = makedirs_dst cfg.remote true cfg.mkStat stT.fs
            (dstOf cfg a.2.1) (dstOf cfg e2.2.1)
        have hout : dstOf cfg e2.2.1 ∉
            ancestors ((dstOf cfg a.2.1).length + 1) (dstOf cfg a.2.1) := by
          refine hsep (dstOf cfg e2.2.1) ?_ a (List.mem_cons_self a l) hp2 hd
          rw [fileDsts_cons]
          exact List.mem_append.mpr (Or.inr (mem_fileDsts h2 h3 h4))
        rw [makedirs_outside hout, makedirs_outside hout]
        exact hinv e2 (List.mem_cons_of_mem a h2) h3 h4
      · cases hsa : a.2.2 with
        | none => exact absurd hsa hs
        | some s =>
          have hveq : validate_dst (Option.map Entry.stat (stF.fs (dstOf cfg a.2.1))) s =
              validate_dst (Option.map Entry.stat (stT.fs (dstOf cfg a.2.1))) s := by
            rw [hinv a (List.mem_cons_self a l) hp2 hf]
          by_cases hv : validate_dst (Option.map Entry.stat (stT.fs (dstOf cfg a.2.1))) s = true
          · rw [show stepOk { cfg with dry := true } stT a = _ from
              stepOk_file_valid hp2 hf hsa hv,
              show stepOk { cfg with dry := false } stF a = _ from
              stepOk_file_valid hp2 hf hsa
                (show validate_dst (Option.map Entry.stat
                    (stF.fs (dstOf cfg a.2.1))) s = true by rw [hveq]; exact hv)]
            refine ih _ _ hgl hndl hsepl htot
              (show stT.dst_list.push a.1 (dstOf cfg a.2.1) =
                stF.dst_list.push a.1 (dstOf cfg a.2.1) by rw [hman]) ?_
            intro e2 h2 h3 h4
            exact hinv e2 (List.mem_cons_of_mem a h2) h3 h4
          · rw [show stepOk { cfg with dry := true } stT a = _ from
              stepOk_file_copy_dry rfl hp2 hf hsa hv,
              show stepOk { cfg with dry := false } stF a = _ from
              stepOk_file_copy rfl hp2 hf hsa
                (show ¬ validate_dst (Option.map Entry.stat
                    (stF.fs (dstOf cfg a.2.1))) s = true by rw [hveq]; exact hv)]
            refine ih _ _ hgl hndl hsepl
              (show stT.total + s.st_size = stF.total + s.st_size by rw [htot])
              (show stT.dst_list.push a.1 (dstOf cfg a.2.1) =
                stF.dst_list.push a.1 (dstOf cfg a.2.1) by rw [hman]) ?_
            intro e2 h2 h3 h4
            show save stF.fs (dstOf cfg a.2.1) s (dstOf cfg e2.2.1) =
              stT.fs (dstOf cfg e2.2.1)
            have hne : dstOf cfg a.2.1 ≠ dstOf cfg e2.2.1 := by
              intro heq
              have hda : dstOf cfg a.2.1 ∉ fileDsts cfg l := by
                rw [fileDsts_cons, if_pos (by simp [hp2, hf])] at hnodup
                exact (List.nodup_cons.mp hnodup).1
              exact hda (heq ▸ mem_fileDsts h2 h3 h4)
            unfold save fsInsert
            rw [if_neg (fun h => hne h.symm)]
            exact hinv e2 (List.mem_cons_of_mem a h2) h3 h4

/-- C6: with dry-run enabled no destination mutation occurs (directory
creation, copying, timestamp updates and removals are all suppressed, the
final destination state is the initial one and the removal list is empty),
while the accumulated byte total and the manifest are identical to those of
the same request without dry-run. -/
theorem claim_C6 (cfg : Cfg) (entries : List WalkEntry) (fs0 : FS) (del : Bool)
    (dstWalk : FS → List WalkEntry) (okRemove : String → String → Bool)
    (hg : ∀ e ∈ entries, GoodEntry e)
    (hnodup : (fileDsts cfg entries).Nodup)
    (hseproot : ∀ q ∈ fileDsts cfg entries,
      q ∉ ancestors (cfg.dstRoot.length + 1) cfg.dstRoot)
    (hsep : ∀ q ∈ fileDsts cfg entries, ∀ e ∈ entries,
      passes cfg e.2.1 = true → e.1 = "dir" →
      q ∉ ancestors ((dstOf cfg e.2.1).length + 1) (dstOf cfg e.2.1))
    (hwk : ∀ fs : FS, ∀ e ∈ dstWalk fs, e.1 = "file" ∨ e.1 = "dir") :
    ∃ rT rF,
      sync_once { cfg with dry := true } entries fs0 del dstWalk okRemove = .ok rT ∧
      sync_once { cfg with dry := false } entries fs0 del dstWalk okRemove = .ok rF ∧
      rT.1.fs = fs0 ∧ rT.1.copies = 0 ∧ rT.2 = [] ∧
      rT.1.total = rF.1.total ∧ rT.1.dst_list = rF.1.dst_list := by
  have hmT : makedirs_dst { cfg with dry := true }.remote { cfg with dry := true }.dry
      { cfg with dry := true }.mkStat fs0 { cfg with dry := true }.dstRoot = fs0 :=
    makedirs_dry
  have h1T := sync_entries_ok { cfg with dry := true } entries
    { fs := fs0, total := 0, copies := 0, dst_list := ⟨[], []⟩ } hg
  have h1F := sync_entries_ok { cfg with dry := false } entries
    { fs := makedirs_dst { cfg with dry := false }.remote { cfg with dry := false }.dry
        { cfg with dry := false }.mkStat fs0 { cfg with dry := false }.dstRoot,
      total := 0, copies := 0, dst_list := ⟨[], []⟩ } hg
  have hcore := C6core entries
    { fs := fs0, total := 0, copies := 0, dst_list := ⟨[], []⟩ }
    { fs := makedirs_dst { cfg with dry := false }.remote { cfg with dry := false }.dry
        { cfg with dry := false }.mkStat fs0 { cfg with dry := false }.dstRoot,
      total := 0, copies := 0, dst_list := ⟨[], []⟩ }
    hg hnodup hsep rfl rfl (by
      intro e he hp hf
      show makedirs_dst { cfg with dry := false }.remote { cfg with dry := false }.dry
        { cfg with dry := false }.mkStat fs0 { cfg with dry := false }.dstRoot
        (dstOf cfg e.2.1) = fs0 (dstOf cfg e.2.1)
      exact makedirs_outside (hseproot _ (mem_fileDsts he hp hf)))
  have hfT := @fold_dry { cfg with dry := true } rfl entries
    { fs := fs0, total := 0, copies := 0, dst_list := ⟨[], []⟩ }
  cases del with
  | false =>
    refine ⟨(entries.foldl (stepOk { cfg with dry := true })
        { fs := fs0, total := 0, copies := 0, dst_list := ⟨[], []⟩ }, []),
      (entries.foldl (stepOk { cfg with dry := false })
        { fs := makedirs_dst { cfg with dry := false }.remote { cfg with dry := false }.dry
            { cfg with dry := false }.mkStat fs0 { cfg with dry := false }.dstRoot,
          total := 0, copies := 0, dst_list := ⟨[], []⟩ }, []),
      ?_, ?_, hfT.1, hfT.2, rfl, hcore.1, hcore.2⟩
    · rw [sync_once_eq, hmT, h1T]
      rfl
    · rw [sync_once_eq, h1F]
      rfl
  | true =>
    have hwkT := hwk (entries.foldl (stepOk { cfg with dry := true })
      { fs := fs0, total := 0, copies := 0, dst_list := ⟨[], []⟩ }).fs
    rcases delete_fold_ok (dstWalk (entries.foldl (stepOk { cfg with dry := true })
        { fs := fs0, total := 0, copies := 0, dst_list := ⟨[], []⟩ }).fs)
        { fs := (entries.foldl (stepOk { cfg with dry := true })
            { fs := fs0, total := 0, copies := 0, dst_list := ⟨[], []⟩ }).fs,
          attempted := [], removed := [] } hwkT with ⟨dT, hdT⟩
    have hdTx : delete_dst (dstWalk (entries.foldl (stepOk { cfg with dry := true })
        { fs := fs0, total := 0, copies := 0, dst_list := ⟨[], []⟩ }).fs)
        (entries.foldl (stepOk { cfg with dry := true })
          { fs := fs0, total := 0, copies := 0, dst_list := ⟨[], []⟩ }).dst_list
        { cfg with dry := true }.dry okRemove
        (entries.foldl (stepOk { cfg with dry := true })
          { fs := fs0, total := 0, copies := 0, dst_list := ⟨[], []⟩ }).fs = .ok dT := hdT
    have hprops : dT.fs = (entries.foldl (stepOk { cfg with dry := true })
        { fs := fs0, total := 0, copies := 0, dst_list := ⟨[], []⟩ }).fs ∧
        dT.removed = [] :=
      delete_fold_dry_props _ _ _ hdT
    have hwkF := hwk (entries.foldl (stepOk { cfg with dry := false })
      { fs := makedirs_dst { cfg with dry := false }.remote { cfg with dry := false }.dry
          { cfg with dry := false }.mkStat fs0 { cfg with dry := false }.dstRoot,
        total := 0, copies := 0, dst_list := ⟨[], []⟩ }).fs
    rcases delete_fold_ok (dstWalk (entries.foldl (stepOk { cfg with dry := false })
        { fs := makedirs_dst { cfg with dry := false }.remote { cfg with dry := false }.dry
            { cfg with dry := false }.mkStat fs0 { cfg with dry := false }.dstRoot,
          total := 0, copies := 0, dst_list := ⟨[], []⟩ }).fs)
        { fs := (entries.foldl (stepOk { cfg with dry := false })
            { fs := makedirs_dst { cfg with dry := false }.remote
                { cfg with dry := false }.dry { cfg with dry := false }.mkStat
                fs0 { cfg with dry := false }.dstRoot,
              total := 0, copies := 0, dst_list := ⟨[], []⟩ }).fs,
          attempted := [], removed := [] } hwkF with ⟨dF, hdF⟩
    have hdFx : delete_dst (dstWalk (entries.foldl (stepOk { cfg with dry := false })
        { fs := makedirs_dst { cfg with dry := false }.remote { cfg with dry := false }.dry
            { cfg with dry := false }.mkStat fs0 { cfg with dry := false }.dstRoot,
          total := 0, copies := 0, dst_list := ⟨[], []⟩ }).fs)
        (entries.foldl (stepOk { cfg with dry := false })
          { fs := makedirs_dst { cfg with dry := false }.remote { cfg with dry := false }.dry
              { cfg with dry := false }.mkStat fs0 { cfg with dry := false }.dstRoot,
            total := 0, copies := 0, dst_list := ⟨[], []⟩ }).dst_list
        { cfg with dry := false }.dry okRemove
        (entries.foldl (stepOk { cfg with dry := false })
          { fs := makedirs_dst { cfg with dry := false }.remote { cfg with dry := false }.dry
              { cfg with dry := false }.mkStat fs0 { cfg with dry := false }.dstRoot,
            total := 0, copies := 0, dst_list := ⟨[], []⟩ }).fs = .ok dF := hdF
    refine ⟨({ entries.foldl (stepOk { cfg with dry := true })
        { fs := fs0, total := 0, copies := 0, dst_list := ⟨[], []⟩ } with fs := dT.fs },
        dT.removed),
      ({ entries.foldl (stepOk { cfg with dry := false })
          { fs := makedirs_dst { cfg with dry := false }.remote { cfg with dry := false }.dry
              { cfg with dry := false }.mkStat fs0 { cfg with dry := false }.dstRoot,
            total := 0, copies := 0, dst_list := ⟨[], []⟩ } with fs := dF.fs },
        dF.removed),
      ?_, ?_, ?_, hfT.2, hprops.2, hcore.1, hcore.2⟩
    · rw [sync_once_eq, hmT, h1T, ok_bind]
      rw [if_pos rfl, hdTx]
      rfl
    · rw [sync_once_eq, h1F, ok_bind]
      rw [if_pos rfl, hdFx]
      rfl
    · show dT.fs = fs0
      rw [hprops.1]
      exact hfT.1

/-- Witness for C6 on a concrete one-file sync: the dry run leaves the
destination untouched, performs no copies and no removals, yet reports the
same total and manifest as the real run. -/
theorem claim_C6_wit :
    ∃ rT rF,
      sync_once
        { includes := [], excludes := [], srcRoot := "/a", dstRoot := "/b",
          remote := true, dry := true, mkStat := fun _ => ⟨0, 0, 0⟩ }
        [("file", "/a/x", some ⟨5, 10, 20⟩)] (fun _ => none) true
        (fun _ => []) (fun _ _ => true) = .ok rT ∧
      sync_once
        { includes := [], excludes := [], srcRoot := "/a", dstRoot := "/b",
          remote := true, dry := false, mkStat := fun _ => ⟨0, 0, 0⟩ }
        [("file", "/a/x", some ⟨5, 10, 20⟩)] (fun _ => none) true
        (fun _ => []) (fun _ _ => true) = .ok rF ∧
      rT.1.fs = (fun _ => none) ∧ rT.1.copies = 0 ∧ rT.2 = [] ∧
      rT.1.total = rF.1.total ∧ rT.1.dst_list = rF.1.dst_list :=
  claim_C6
    { includes := [], excludes := [], srcRoot := "/a", dstRoot := "/b",
      remote := true, dry := false, mkStat := fun _ => ⟨0, 0, 0⟩ }
    [("file", "/a/x", some ⟨5, 10, 20⟩)] (fun _ => none) true
    (fun _ => []) (fun _ _ => true)
    (by
      intro e he
      rcases List.mem_singleton.mp he with rfl
      exact Or.inr ⟨rfl, by simp⟩)
    (by decide)
    (by decide)
    (by decide)
    (by
      intro fs e he
      exact absurd he (List.not_mem_nil e))
